import Mathlib

/-!
Verification development for the sequencer core of `piano.py`
(notation compiler + dual-track playback scheduler).

Python strings are modelled as `List Char` (wrapped in `String` at the
API boundary), Python floats as `ℚ` (the numeric claims at stake concern
exact decimal values where float and rational arithmetic agree), Python
ints as `ℤ`/`ℕ`, and `raise ValueError` as an `Except SeqErr` result whose
constructors mirror the distinct raise sites of the source.
-/

set_option maxRecDepth 4000

deriving instance DecidableEq for Except

/-- Whitespace test used by Python `str.strip` / `\s` (ASCII fragment). -/
def isWs (c : Char) : Bool := c = ' ' ∨ c = '\t' ∨ c = '\n' ∨ c = '\r'

/-- Python `str.strip()` on a character list. -/
def pyStrip (cs : List Char) : List Char :=
  ((cs.dropWhile isWs).reverse.dropWhile isWs).reverse

/-- Python `str.lower()` (ASCII). -/
def pyLower (cs : List Char) : List Char := cs.map Char.toLower

/-- Python `str.isdigit()`: nonempty and all digits. -/
def isDigitStr (cs : List Char) : Bool := !cs.isEmpty && cs.all Char.isDigit

/-- Decimal value of a digit list (used for `int(...)` on guarded input). -/
def digitsToNat (ds : List Char) : ℕ := ds.foldl (fun a c => a * 10 + (c.toNat - 48)) 0

/-- Python `int(s)` for the strings reaching it here: optional single sign,
then at least one digit; anything else raises (`none`). -/
def pyToInt (cs : List Char) : Option ℤ :=
  match cs with
  | '-' :: rest => if isDigitStr rest then some (-(digitsToNat rest : ℤ)) else none
  | '+' :: rest => if isDigitStr rest then some (digitsToNat rest : ℤ) else none
  | _ => if isDigitStr cs then some (digitsToNat cs : ℤ) else none

/-- Association-list lookup, modelling Python `dict` access / `in`. -/
def alistGet {κ β : Type} [DecidableEq κ] (k : κ) : List (κ × β) → Option β
  | [] => none
  | (k', v) :: rest => if k = k' then some v else alistGet k rest

/-- Split a character list on a separator character (Python `str.split(sep)`):
`"".split` gives `[""]`, empty fields are kept. -/
def splitOnChar (sep : Char) : List Char → List (List Char)
  | [] => [[]]
  | c :: rest =>
    match splitOnChar sep rest with
    | [] => [[c]]      -- unreachable: result is always nonempty
    | h :: t => if c = sep then [] :: h :: t else (c :: h) :: t

/-- Split on every character satisfying `p` (keeping empty fields). -/
def splitOnPred (p : Char → Bool) : List Char → List (List Char)
  | [] => [[]]
  | c :: rest =>
    match splitOnPred p rest with
    | [] => [[c]]      -- unreachable: result is always nonempty
    | h :: t => if p c then [] :: h :: t else (c :: h) :: t

/-- Split on runs of commas/whitespace and drop empty fields
(Python `re.split(r'[,\s]+', s)` followed by skipping falsy items). -/
def splitCommaWs (cs : List Char) : List (List Char) :=
  (splitOnPred (fun c => c = ',' || isWs c) cs).filter (· ≠ [])

/-- Python `s.rsplit(':', 1)` when a colon is present: the pair
(everything before the last colon, everything after it). -/
def rsplitOnColon : List Char → List Char × List Char
  | [] => ([], [])
  | c :: rest =>
    if ':' ∈ rest then
      match rsplitOnColon rest with
      | (a, b) => (c :: a, b)
    else if c = ':' then ([], rest)
    else (c :: rest, [])

/-- Case-insensitive literal match: returns the remainder of `cs` after the
pattern `p` (already lowercase), or `none`. -/
def dropLitCI : List Char → List Char → Option (List Char)
  | cs, [] => some cs
  | [], _ :: _ => none
  | c :: cs, p :: ps => if c.toLower = p then dropLitCI cs ps else none

/-- `DURATION_MAP` of the source. -/
def durationMap : List (List Char × ℚ) :=
  [("w".data, 4), ("h".data, 2), ("q".data, 1), ("e".data, 1/2), ("s".data, 1/4)]

/-- `REST_MAP` of the source. -/
def restMap : List (List Char × ℚ) :=
  [("R".data, 4), ("r".data, 2), ("rr".data, 1), ("rrr".data, 1/2), ("rrrr".data, 1/4)]

/-- Pitch-class table `pcs` of `note_name_to_midi`. -/
def pcsMap : List (List Char × ℕ) :=
  [("C".data, 0), ("C#".data, 1), ("Db".data, 1), ("D".data, 2), ("D#".data, 3),
   ("Eb".data, 3), ("E".data, 4), ("F".data, 5), ("F#".data, 6), ("Gb".data, 6),
   ("G".data, 7), ("G#".data, 8), ("Ab".data, 8), ("A".data, 9), ("A#".data, 10),
   ("Bb".data, 10), ("B".data, 11)]

/-- `NOTE_NAMES_SHARP` of the source. -/
def noteNamesSharp : List (List Char) :=
  ["C".data, "C#".data, "D".data, "D#".data, "E".data, "F".data,
   "F#".data, "G".data, "G#".data, "A".data, "A#".data, "B".data]

/-- Errors: one constructor per distinct `raise ValueError` site of the
source (payload = the offending text).  The source has no raise site for an
unbalanced bracket. -/
inductive SeqErr : Type where
  | midiOutOfRange (t : String)
  | invalidNote (t : String)
  | invalidDuration (t : String)
  | chordNoteNeedsDuration (t : String)
  | invalidBracketedChord (t : String)
  | invalidToken (t : String)
  | invalidIntLiteral (t : String)
  deriving DecidableEq, Repr

/-- Result of `note_name_to_midi`: the string `'rest'` or a MIDI number. -/
inductive PitchRes : Type where
  | rest
  | midi (n : ℕ)
  deriving DecidableEq, Repr

/-- `note_name_to_midi` of the source. -/
def noteNameToMidi (token : List Char) : Except SeqErr PitchRes :=
  let t := pyStrip token
  if pyLower t = "r".data ∨ pyLower t = "rest".data then .ok .rest
  else if (alistGet t restMap).isSome then .ok .rest
  else if isDigitStr t ∨ (t.head? = some '-' ∧ isDigitStr (t.drop 1)) then
    let val : ℤ := if t.head? = some '-' then -(digitsToNat (t.drop 1) : ℤ) else (digitsToNat t : ℤ)
    if 0 ≤ val ∧ val ≤ 127 then .ok (.midi val.toNat)
    else .error (.midiOutOfRange (String.mk t))
  else if t.length < 2 then .error (.invalidNote (String.mk t))
  else
    let hasAcc : Bool := 3 ≤ t.length && (t.getD 1 ' ' = '#' || t.getD 1 ' ' = 'b')
    let pc := if hasAcc then t.take 2 else t.take 1
    let octv := if hasAcc then t.drop 2 else t.drop 1
    match alistGet pc pcsMap with
    | none => .error (.invalidNote (String.mk t))
    | some pcv =>
      if isDigitStr (octv.dropWhile (· = '-')) then
        match pyToInt octv with
        | none => .error (.invalidIntLiteral (String.mk octv))
        | some o =>
          let midi : ℤ := (o + 1) * 12 + (pcv : ℤ)
          if 0 ≤ midi ∧ midi ≤ 127 then .ok (.midi midi.toNat)
          else .error (.midiOutOfRange (String.mk t))
      else .error (.invalidNote (String.mk t))

/-- `midi_to_note_name` of the source: sharp pitch-class name followed by
`octave = midi // 12 - 1` in decimal. -/
def midiToNoteName (midiNote : ℕ) : List Char :=
  let octave : ℤ := ((midiNote / 12 : ℕ) : ℤ) - 1
  (noteNamesSharp.getD (midiNote % 12) []) ++
    (if octave < 0 then '-' :: Nat.toDigits 10 octave.natAbs else Nat.toDigits 10 octave.toNat)

/-- Python `float(s)` restricted to decimal literals: optional sign, digits
with optional fraction, optional exponent.  (`inf`/`nan`/underscores are not
representable in `ℚ` and do not occur in the notation at stake.) -/
def pyFloat (cs : List Char) : Option ℚ :=
  let (sgn, cs) : ℚ × List Char :=
    match cs with
    | '-' :: r => (-1, r)
    | '+' :: r => (1, r)
    | _ => (1, cs)
  let ip := cs.takeWhile Char.isDigit
  let cs := cs.dropWhile Char.isDigit
  let (fp, cs) : List Char × List Char :=
    match cs with
    | '.' :: r => (r.takeWhile Char.isDigit, r.dropWhile Char.isDigit)
    | _ => ([], cs)
  if ip = [] ∧ fp = [] then none
  else
    let mant : ℚ := (digitsToNat ip : ℚ) + (digitsToNat fp : ℚ) / ((10 ^ fp.length : ℕ) : ℚ)
    match cs with
    | [] => some (sgn * mant)
    | 'e' :: r =>
      let (eneg, r) : Bool × List Char :=
        match r with
        | '-' :: r2 => (true, r2)
        | '+' :: r2 => (false, r2)
        | _ => (false, r)
      if isDigitStr r then
        some (if eneg then sgn * mant / ((10 ^ digitsToNat r : ℕ) : ℚ)
              else sgn * mant * ((10 ^ digitsToNat r : ℕ) : ℚ))
      else none
    | _ => none

/-- `parse_duration` of the source. -/
def parseDuration (token : List Char) : Except SeqErr ℚ :=
  let t := pyLower (pyStrip token)
  match alistGet t durationMap with
  | some v => .ok v
  | none =>
    match pyFloat t with
    | some q => .ok q
    | none => .error (.invalidDuration (String.mk token))

/-- Result of `parse_note_group`: the string `'rest'`, a single MIDI note, a
plus-chord note list, or a bracketed list of (note, duration) pairs. -/
inductive NoteGroup : Type where
  | rest
  | one (n : ℕ)
  | many (ns : List ℕ)
  | withDur (items : List (ℕ × ℚ))
  deriving DecidableEq, Repr

/-- Python `sorted(set(l))` for naturals. -/
def pySortedSet (l : List ℕ) : List ℕ := (l.insertionSort (· ≤ ·)).dedup

/-- The loop over bracket items in `parse_note_group`: each item must be
`pitch:duration`; rest pitches are dropped (their duration is not parsed). -/
def chordItems : List (List Char) → Except SeqErr (List (ℕ × ℚ))
  | [] => .ok []
  | it :: rest =>
    if ':' ∈ it then
      let (nTok, dTok) := rsplitOnColon it
      match noteNameToMidi nTok with
      | .error e => .error e
      | .ok .rest => chordItems rest
      | .ok (.midi n) =>
        match parseDuration dTok with
        | .error e => .error e
        | .ok dur => (chordItems rest).map (fun l => (n, dur) :: l)
    else .error (.chordNoteNeedsDuration (String.mk it))

/-- The loop over `+`-separated pitches in `parse_note_group`
(empty items skipped, rest pitches dropped). -/
def plusNotes : List (List Char) → Except SeqErr (List ℕ)
  | [] => .ok []
  | it :: rest =>
    if it = [] then plusNotes rest
    else
      match noteNameToMidi it with
      | .error e => .error e
      | .ok .rest => plusNotes rest
      | .ok (.midi n) => (plusNotes rest).map (fun l => n :: l)

/-- `parse_note_group` of the source. -/
def parseNoteGroup (noteTok : List Char) : Except SeqErr NoteGroup :=
  let t := pyStrip noteTok
  if t.head? = some '[' ∧ t.getLast? = some ']' then
    match chordItems (splitCommaWs (pyStrip ((t.drop 1).dropLast))) with
    | .error e => .error e
    | .ok [] => .ok .rest
    | .ok items => .ok (.withDur items)
  else
    match plusNotes (splitOnChar '+' t) with
    | .error e => .error e
    | .ok [] => .ok .rest
    | .ok notes =>
      match pySortedSet notes with
      | [n] => .ok (.one n)
      | ns => .ok (.many ns)

/-- The regex `^\s*triole\s*:\s*([whqes])\s*$` (case-insensitive), returning
the matched unit's beat value. -/
def trioleMatch (part : List Char) : Option ℚ :=
  match dropLitCI (part.dropWhile isWs) "triole".data with
  | none => none
  | some r1 =>
    match r1.dropWhile isWs with
    | ':' :: r2 =>
      match r2.dropWhile isWs with
      | u :: r3 =>
        match alistGet [u.toLower] durationMap with
        | some v => if r3.dropWhile isWs = [] then some v else none
        | none => none
      | [] => none
    | _ => none

/-- A parsed sequence entry: one constructor per shape of pair the source
appends to `seq` in `parse_sequence_line` (`('__TRIOLE__', beats)`,
`('rest', beats)`, `(int, beats)`, `([int, ...], beats)`, and the
variable-duration chord `([(int, float), ...], None)`). -/
inductive SeqItem : Type where
  | triole (baseUnit : ℚ)
  | rest (beats : ℚ)
  | note (n : ℕ) (beats : ℚ)
  | chord (ns : List ℕ) (beats : ℚ)
  | varChord (items : List (ℕ × ℚ))
  deriving DecidableEq, Repr

/-- The bracket-aware character loop of `parse_sequence_line`. -/
def tokLoop : List Char → List (List Char) → List Char → Bool → List (List Char)
  | [], parts, current, _ =>
    let t := pyStrip current
    if t = [] then parts else parts ++ [t]
  | c :: rest, parts, current, inBracket =>
    if c = '[' then
      let t := pyStrip current
      if t = [] then tokLoop rest parts (current ++ ['[']) true
      else tokLoop rest (parts ++ [t]) ['['] true
    else if c = ']' then
      let cur2 := current ++ [']']
      let t := pyStrip cur2
      if t = [] then tokLoop rest parts cur2 false
      else tokLoop rest (parts ++ [t]) [] false
    else if (c = ',' ∨ c = ';' ∨ c = '|' ∨ c = ' ' ∨ c = '\t') ∧ ¬inBracket then
      let t := pyStrip current
      if t = [] then tokLoop rest parts [] inBracket
      else tokLoop rest (parts ++ [t]) [] inBracket
    else tokLoop rest parts (current ++ [c]) inBracket

/-- The per-token dispatch of `parse_sequence_line` (each token yields
exactly one sequence entry or raises). -/
def parsePart (part : List Char) : Except SeqErr SeqItem :=
  match trioleMatch part with
  | some u => .ok (.triole u)
  | none =>
  match alistGet part restMap with
  | some v => .ok (.rest v)
  | none =>
  if part.head? = some '[' ∧ part.getLast? = some ']' then
    match parseNoteGroup part with
    | .error e => .error e
    | .ok .rest => .ok (.rest (1/2))
    | .ok (.withDur items) => .ok (.varChord items)
    | .ok _ => .error (.invalidBracketedChord (String.mk part))
  else if ':' ∉ part then .error (.invalidToken (String.mk part))
  else
    let (noteTok, durTok) := rsplitOnColon part
    match parseNoteGroup noteTok with
    | .error e => .error e
    | .ok g =>
      match parseDuration durTok with
      | .error e => .error e
      | .ok beats =>
        match g with
        | .rest => .ok (.rest beats)
        | .one n => .ok (.note n beats)
        | .many ns => .ok (.chord ns beats)
        | .withDur items => .ok (.varChord items)
          -- unreachable from tokenizer output: a token containing a closing
          -- bracket always ends with it, so this shape is caught above

/-- `parse_sequence_line` of the source, on a character list. -/
def parseSeqLineL (text : List Char) : Except SeqErr (List SeqItem) :=
  if pyStrip text = [] then .ok []
  else (tokLoop text [] [] false).mapM parsePart

/-- `parse_sequence_line` of the source. -/
def parseSequenceLine (text : String) : Except SeqErr (List SeqItem) :=
  parseSeqLineL text.data

/-- The regex `^([LR]):\s*(.*)$` (case-insensitive) of
`parse_sequence_file_text`: the matched label (upper-cased) and body. -/
def matchLabel (line : List Char) : Option (Char × List Char) :=
  match line with
  | c :: ':' :: rest =>
    if c = 'L' ∨ c = 'l' then some ('L', rest.dropWhile isWs)
    else if c = 'R' ∨ c = 'r' then some ('R', rest.dropWhile isWs)
    else none
  | _ => none

/-- The `tracks` dictionary state of `parse_sequence_file_text` while its
line loop runs: the `'L'` and `'R'` entries (absent = key not set), the
unlabeled accumulator `tracks['_']`, and the `any_labeled` flag. -/
structure FState : Type where
  trL : Option (List SeqItem)
  trR : Option (List SeqItem)
  unl : List SeqItem
  anyLabeled : Bool
  deriving DecidableEq, Repr

/-- `tracks[label] = parse_sequence_line(body)` — an assignment, so a later
line with the same label replaces the earlier one. -/
def setTrack (fs : FState) (lab : Char) (evs : List SeqItem) : FState :=
  if lab = 'L' then { fs with trL := some evs, anyLabeled := true }
  else { fs with trR := some evs, anyLabeled := true }

/-- The line loop of `parse_sequence_file_text`. -/
def fileAux : List (List Char) → FState → Except SeqErr FState
  | [], fs => .ok fs
  | raw :: rest, fs =>
    let line := pyStrip raw
    if line = [] ∨ line.head? = some '#' then fileAux rest fs
    else
      match matchLabel line with
      | some (lab, body) =>
        match parseSeqLineL body with
        | .error e => .error e
        | .ok evs => fileAux rest (setTrack fs lab evs)
      | none =>
        match parseSeqLineL line with
        | .error e => .error e
        | .ok evs => fileAux rest { fs with unl := fs.unl ++ evs }

/-- `parse_sequence_file_text` of the source.  The result models the
returned dict as an association list in insertion order:
`{'L': ..., 'R': ...}` when any labeled line was seen, else `{'R': ...}`. -/
def parseSequenceFileText (text : String) : Except SeqErr (List (String × List SeqItem)) :=
  match fileAux (splitOnChar '\n' text.data) ⟨none, none, [], false⟩ with
  | .error e => .error e
  | .ok fs =>
    if fs.anyLabeled then .ok [("L", fs.trL.getD []), ("R", fs.trR.getD [])]
    else .ok [("R", fs.unl)]

/-- Observation: the body a (non-blank, non-comment) line contributes to
label `lab`, if any. -/
def lineBody (lab : Char) (raw : List Char) : Option (List Char) :=
  let line := pyStrip raw
  if line = [] ∨ line.head? = some '#' then none
  else
    match matchLabel line with
    | some (l, body) => if l = lab then some body else none
    | none => none

/-- Observation: the bodies of all lines of `text` labeled `lab`, in order. -/
def labeledBodies (lab : Char) (text : String) : List (List Char) :=
  (splitOnChar '\n' text.data).filterMap (lineBody lab)

/-- Observation: whether any non-blank, non-comment line carries an
`L:`/`R:` label (the `any_labeled` flag of the source). -/
def anyLabeledLine (text : String) : Bool :=
  (splitOnChar '\n' text.data).any (fun raw =>
    let line := pyStrip raw
    !(decide (line = [] ∨ line.head? = some '#')) && (matchLabel line).isSome)

/-- Python `int(x)` on a rational: truncation toward zero. -/
def pyInt (q : ℚ) : ℤ := if 0 ≤ q then ⌊q⌋ else ⌈q⌉

/-- `beats_to_ms` of the source: `int((60_000.0 / bpm) * beats)`. -/
def beatsToMs (beats bpm : ℚ) : ℤ := pyInt ((60000 / bpm) * beats)

/-- Is the entry a `('__TRIOLE__', _)` control token? -/
def isTrioleItem : SeqItem → Bool
  | .triole _ => true
  | _ => false

/-- `_event_nominal_beats` of the source (max member duration for a
variable-duration chord, `0.0` when `beats is None` otherwise). -/
def eventNominalBeats : SeqItem → ℚ
  | .triole b => b
  | .rest b => b
  | .note _ b => b
  | .chord _ b => b
  | .varChord [] => 0
  | .varChord (x :: xs) => xs.foldl (fun a p => max a p.2) x.2

/-- The look-ahead loop of `_compute_triole_scale` (runs over the entries
after the control token, counting up to 3 non-control events). -/
def lookAux : List SeqItem → ℕ → ℚ → ℚ × ℕ
  | [], _count, total => (total, _count)
  | e :: rest, count, total =>
    if count < 3 then
      if isTrioleItem e then lookAux rest count total
      else lookAux rest (count + 1) (total + eventNominalBeats e)
    else (total, count)

/-- `_compute_triole_scale` applied to the entries after the control token. -/
def trioleScaleFrom (after : List SeqItem) (baseUnit : ℚ) : ℚ × ℕ :=
  match lookAux after 0 0 with
  | (total, count) =>
    if count = 0 ∨ total ≤ 0 then (1, 0)
    else ((2 * baseUnit) / total, count)

/-- `_compute_triole_scale` of the source (`start_idx` = index of the
control token; the scan starts at `start_idx + 1`). -/
def computeTrioleScale (seq : List SeqItem) (startIdx : ℕ) (baseUnit : ℚ) : ℚ × ℕ :=
  trioleScaleFrom (seq.drop (startIdx + 1)) baseUnit

/-- The `current` field of a track state:
`None | 'rest' | int | [int, ...]`. -/
inductive Cur : Type where
  | none
  | rest
  | one (n : ℕ)
  | many (ns : List ℕ)
  deriving DecidableEq, Repr

/-- The pitches a `current` value holds (with multiplicity, as the source's
lists may). -/
def curPitches : Cur → List ℕ
  | .none => []
  | .rest => []
  | .one n => [n]
  | .many ns => ns

/-- Does `current not in (None, 'rest')` hold? -/
def isSounding : Cur → Bool
  | .one _ => true
  | .many _ => true
  | _ => false

/-- Per-track playback state (`track_state[label]` of the source). -/
structure TrackSt : Type where
  idx : ℤ
  current : Cur
  nextOnMs : ℤ
  offMs : ℤ
  finished : Bool
  lenS : ℕ
  tripScale : ℚ
  tripRemaining : ℕ
  deriving DecidableEq, Repr

/-- A sink call: note-on or note-off for one pitch
(`play_note` / `stop_note`). -/
inductive Call : Type where
  | on (n : ℕ)
  | off (n : ℕ)
  deriving DecidableEq, Repr

/-- Python `set.add` on the insertion-ordered model of
`PLAYING_SEQ_NOTES`. -/
def setAdd (pl : List ℕ) (n : ℕ) : List ℕ := if n ∈ pl then pl else pl ++ [n]

/-- Repeated `set.add`. -/
def addAll (pl : List ℕ) (ns : List ℕ) : List ℕ := ns.foldl setAdd pl

/-- Python `set.discard`. -/
def setDiscard (pl : List ℕ) (n : ℕ) : List ℕ := pl.erase n

/-- Repeated `set.discard`. -/
def removeAll (pl : List ℕ) (ns : List ℕ) : List ℕ := ns.foldl setDiscard pl

/-- `_stop_current_for_track` of the source: returns the updated
`PLAYING_SEQ_NOTES`, the updated track state (`current = None`), and the
emitted note-off calls. -/
def stopCurrentForTrack (pl : List ℕ) (st : TrackSt) : List ℕ × TrackSt × List Call :=
  match st.current with
  | .none => (pl, { st with current := .none }, [])
  | .rest => (pl, { st with current := .none }, [])
  | .one n => (setDiscard pl n, { st with current := .none }, [.off n])
  | .many ns => (removeAll pl ns, { st with current := .none }, ns.map .off)

/-- The trailing triplet-slot bookkeeping of the dispatch step
(`trip_remaining -= 1`, reset scale on reaching zero). -/
def tripConsume (st : TrackSt) : TrackSt :=
  if 0 < st.tripRemaining then
    if st.tripRemaining - 1 = 0 then { st with tripRemaining := 0, tripScale := 1 }
    else { st with tripRemaining := st.tripRemaining - 1 }
  else st

/-- `eff_beats`: scale by `trip_scale` while triplet slots remain. -/
def effBeats (st : TrackSt) (beats : ℚ) : ℚ :=
  if 0 < st.tripRemaining then beats * st.tripScale else beats

/-- The inner `while True` loop of `sequencer_update` step 2: advance the
cursor, consume control tokens (computing the triplet scale from the
entries after them), and schedule the first sounding event or finish.
`pending` is the list of entries after the current cursor
(`seq[idx+1:]`). -/
def schedLoop (now : ℤ) (bpm : ℚ) (pl : List ℕ) (st : TrackSt) :
    List SeqItem → List ℕ × TrackSt × List Call
  | [] => (pl, { st with idx := st.idx + 1, finished := true }, [])
  | ev :: pending =>
    let st1 := { st with idx := st.idx + 1 }
    match ev with
    | .triole baseUnit =>
      match trioleScaleFrom pending baseUnit with
      | (scale, count) =>
        schedLoop now bpm pl { st1 with tripScale := scale, tripRemaining := count } pending
    | .varChord items =>
      let effNotes := items.map (fun p =>
        (p.1, if 0 < st1.tripRemaining then p.2 * st1.tripScale else p.2))
      let maxDur : ℚ :=
        match effNotes with
        | [] => 0     -- unreachable from the parser; Python would raise here
        | x :: xs => xs.foldl (fun a p => max a p.2) x.2
      let durMs := beatsToMs maxDur bpm
      (effNotes.foldl (fun a p => setAdd a p.1) pl,
       tripConsume { st1 with current := .many (effNotes.map Prod.fst),
                              offMs := now + durMs, nextOnMs := now + durMs },
       effNotes.map (fun p => Call.on p.1))
    | .rest beats =>
      let durMs := beatsToMs (effBeats st1 beats) bpm
      (pl,
       tripConsume { st1 with current := .rest, offMs := now + durMs, nextOnMs := now + durMs },
       [])
    | .note n beats =>
      let durMs := beatsToMs (effBeats st1 beats) bpm
      (setAdd pl n,
       tripConsume { st1 with current := .one n, offMs := now + durMs, nextOnMs := now + durMs },
       [.on n])
    | .chord ns beats =>
      let durMs := beatsToMs (effBeats st1 beats) bpm
      (addAll pl ns,
       tripConsume { st1 with current := .many ns, offMs := now + durMs, nextOnMs := now + durMs },
       ns.map .on)

/-- One track's share of `sequencer_update`: step 1 (turn off an elapsed
sounding event) then step 2 (schedule the next event when due). -/
def updateTrack (seq : List SeqItem) (now : ℤ) (bpm : ℚ) (pl : List ℕ) (st : TrackSt) :
    List ℕ × TrackSt × List Call :=
  match (if isSounding st.current ∧ st.offMs ≤ now then stopCurrentForTrack pl st
         else (pl, st, [])) with
  | (pl1, st1, calls1) =>
    if st1.current = Cur.none ∧ st1.nextOnMs ≤ now then
      match schedLoop now bpm pl1 st1 (seq.drop (st1.idx + 1).toNat) with
      | (pl2, st2, calls2) => (pl2, st2, calls1 ++ calls2)
    else (pl1, st1, calls1)

/-- Global sequencer state: `is_playing`, `track_state` (insertion-ordered
dict), and `PLAYING_SEQ_NOTES` (insertion-ordered set). -/
structure SysSt : Type where
  isPlaying : Bool
  tracks : List (String × TrackSt)
  playingNotes : List ℕ
  deriving DecidableEq, Repr

/-- In-place dict update `track_state[label] = v`. -/
def alistSet {κ β : Type} [DecidableEq κ] (k : κ) (v : β) (l : List (κ × β)) : List (κ × β) :=
  l.map (fun p => if p.1 = k then (k, v) else p)

/-- The per-label loop of `sequencer_update`, returning the updated track
dict, updated playing-note set, emitted calls, and the `all_finished`
flag. -/
def updFold (now : ℤ) (bpm : ℚ) : List (String × List SeqItem) →
    List (String × TrackSt) → List ℕ → Bool →
    List (String × TrackSt) × List ℕ × List Call × Bool
  | [], tracks, pl, allFin => (tracks, pl, [], allFin)
  | (label, seq) :: rest, tracks, pl, allFin =>
    match alistGet label tracks with
    | none => updFold now bpm rest tracks pl allFin
    | some tst =>
      if tst.finished then updFold now bpm rest tracks pl allFin
      else
        match updateTrack seq now bpm pl tst with
        | (pl1, tst1, calls1) =>
          match updFold now bpm rest (alistSet label tst1 tracks) pl1
              (allFin && tst1.finished) with
          | (tracksF, plF, callsF, finF) => (tracksF, plF, calls1 ++ callsF, finF)

/-- `sequencer_stop` of the source: note-off for every pitch in
`PLAYING_SEQ_NOTES`, then clear it, clear `track_state`, stop playing. -/
def sequencerStop (st : SysSt) : SysSt × List Call :=
  (⟨false, [], []⟩, st.playingNotes.map .off)

/-- `sequencer_update` of the source (one tick at wall-clock `now`). -/
def sequencerUpdate (seqs : List (String × List SeqItem)) (now : ℤ) (bpm : ℚ)
    (st : SysSt) : SysSt × List Call :=
  if st.isPlaying then
    match updFold now bpm seqs st.tracks st.playingNotes true with
    | (tracks1, pl1, calls, allFin) =>
      if allFin then
        match sequencerStop ⟨true, tracks1, pl1⟩ with
        | (st2, stopCalls) => (st2, calls ++ stopCalls)
      else (⟨true, tracks1, pl1⟩, calls)
  else (st, [])

/-- The fresh per-track state `sequencer_start` installs. -/
def initTrack (now : ℤ) (seq : List SeqItem) : TrackSt :=
  ⟨-1, .none, now, 0, false, seq.length, 1, 0⟩

/-- `sequencer_start` of the source: no-op when every track is empty;
otherwise install fresh track states and clear `PLAYING_SEQ_NOTES`.
It emits no sink calls (the source calls neither `play_note` nor
`stop_note` here), which the returned call list records. -/
def sequencerStart (seqs : List (String × List SeqItem)) (now : ℤ) (st : SysSt) :
    SysSt × List Call :=
  if seqs.all (fun pr => pr.2.isEmpty) then (st, [])
  else (⟨true, seqs.map (fun pr => (pr.1, initTrack now pr.2)), []⟩, [])

/-- The idle state before any playback. -/
def initialSys : SysSt := ⟨false, [], []⟩

/-- Run `sequencer_update` at each listed `(now, bpm)` tick. -/
def runUpdates (seqs : List (String × List SeqItem)) :
    List (ℤ × ℚ) → SysSt → SysSt × List Call
  | [], st => (st, [])
  | (now, bpm) :: ticks, st =>
    match sequencerUpdate seqs now bpm st with
    | (st1, c1) =>
      match runUpdates seqs ticks st1 with
      | (st2, c2) => (st2, c1 ++ c2)

/-- A full playback session: Start, a list of ticks, then Stop; the
concatenated sink-call trace. -/
def sessionTrace (seqs : List (String × List SeqItem)) (startNow : ℤ)
    (ticks : List (ℤ × ℚ)) : List Call :=
  match sequencerStart seqs startNow initialSys with
  | (st0, c0) =>
    match runUpdates seqs ticks st0 with
    | (st1, c1) =>
      match sequencerStop st1 with
      | (_, c2) => c0 ++ c1 ++ c2

/-- Number of note-on calls for pitch `p` in a trace. -/
def onCount (p : ℕ) (cs : List Call) : ℕ := cs.count (.on p)

/-- Number of note-off calls for pitch `p` in a trace. -/
def offCount (p : ℕ) (cs : List Call) : ℕ := cs.count (.off p)

/-- All pitches an entry can sound (with multiplicity). -/
def itemPitches : SeqItem → List ℕ
  | .triole _ => []
  | .rest _ => []
  | .note n _ => [n]
  | .chord ns _ => ns
  | .varChord items => items.map Prod.fst

/-- All pitches a track can sound. -/
def seqPitches (s : List SeqItem) : List ℕ := s.flatMap itemPitches

/-- The pitches currently sounding across all track states
(with multiplicity). -/
def allCur (tracks : List (String × TrackSt)) : List ℕ :=
  tracks.flatMap (fun pr => curPitches pr.2.current)

/-- Observation: does the line contain a `[` that is never closed before end
of line?  Equivalently, the tokenizer's `in_bracket` flag is still set when
the line ends (the last bracket character seen is `[`). -/
def hasUnclosedBracket (cs : List Char) : Bool :=
  cs.foldl (fun b c => if c = '[' then true else if c = ']' then false else b) false

/-- A track-state dict entry is aligned with its sequence when it carries the
same label and its currently-sounding pitches are those of one entry of the
sequence (or none). -/
def trkAligned (pr : String × List SeqItem) (tr : String × TrackSt) : Prop :=
  pr.1 = tr.1 ∧
    (curPitches tr.2.current = [] ∨
      ∃ it ∈ pr.2, curPitches tr.2.current = itemPitches it)

/-- The sequencer-state invariant maintained across ticks: when playing, the
track dict is aligned with the score; when stopped, it is empty; and
`PLAYING_SEQ_NOTES` is a duplicate-free list whose members are exactly the
currently sounding pitches. -/
def sysInv (seqs : List (String × List SeqItem)) (st : SysSt) : Prop :=
  (st.isPlaying = true → List.Forall₂ trkAligned seqs st.tracks) ∧
  (st.isPlaying = false → st.tracks = []) ∧
  (∀ p, p ∈ st.playingNotes ↔ p ∈ allCur st.tracks) ∧
  st.playingNotes.Nodup

/-- C9: Stop is idempotent with respect to sink output: after any Stop, an
immediately following second Stop emits zero note-off calls and leaves the
active-note set and playback state unchanged (all empty). -/
theorem c9_stop_idempotent (st : SysSt) :
    sequencerStop (sequencerStop st).1 = ((sequencerStop st).1, ([] : List Call)) ∧
    (sequencerStop st).1.playingNotes = [] ∧
    (sequencerStop st).1.isPlaying = false ∧
    (sequencerStop st).1.tracks = [] :=
  ⟨rfl, rfl, rfl, rfl⟩

/-- C10: Start never emits any sink call (note-on or note-off); when some
track is nonempty it installs fresh state and clears the active-note set
without emitting note-offs for pitches still sounding. -/
theorem c10_start_silent (seqs : List (String × List SeqItem)) (now : ℤ) (st : SysSt) :
    (sequencerStart seqs now st).2 = [] ∧
    (seqs.all (fun pr => pr.2.isEmpty) = false →
      (sequencerStart seqs now st).1.playingNotes = [] ∧
      (sequencerStart seqs now st).1.isPlaying = true) := by
  unfold sequencerStart
  by_cases h : seqs.all (fun pr => pr.2.isEmpty) <;> simp [h]

/-- Witness for C10 at a concrete nonempty score and a state with pitch 60
still sounding. -/
theorem c10_start_silent_witness :
    ([(("R" : String), [SeqItem.note 60 1])].all (fun pr => pr.2.isEmpty)) = false ∧
    (sequencerStart [("R", [SeqItem.note 60 1])] 0 ⟨true, [], [60]⟩).2 = [] ∧
    (sequencerStart [("R", [SeqItem.note 60 1])] 0 ⟨true, [], [60]⟩).1.playingNotes = [] :=
  ⟨by with_unfolding_all decide,
   (c10_start_silent [("R", [SeqItem.note 60 1])] 0 ⟨true, [], [60]⟩).1,
   ((c10_start_silent [("R", [SeqItem.note 60 1])] 0 ⟨true, [], [60]⟩).2
     (by with_unfolding_all decide)).1⟩

/-- C5 counterexample: at 90 BPM a quarter note is scheduled for
`int(60000/90 * 1) = 666` ms, while rounding to the nearest integer would
give 667 ms — the code truncates, it does not round. -/
theorem c5_counterexample :
    beatsToMs 1 90 = 666 ∧ round ((60000 : ℚ) / 90 * 1) = 667 := by
  with_unfolding_all decide

/-- C5 (amended): the scheduled duration is the truncation (floor, as the
operands are nonnegative) of `60000/BPM * eff(beats)`, i.e. the unique
integer within distance 1 below the exact value — not the nearest
integer. -/
theorem c5_truncation (beats bpm : ℚ) (hb : 0 ≤ beats) (hbpm : 0 < bpm) :
    beatsToMs beats bpm = ⌊60000 / bpm * beats⌋ ∧
    (beatsToMs beats bpm : ℚ) ≤ 60000 / bpm * beats ∧
    60000 / bpm * beats < (beatsToMs beats bpm : ℚ) + 1 := by
  have hq : (0 : ℚ) ≤ 60000 / bpm * beats := by positivity
  unfold beatsToMs pyInt
  rw [if_pos hq]
  exact ⟨rfl, Int.floor_le _, Int.lt_floor_add_one _⟩

/-- Witness for C5 (amended) at a concrete beat count and tempo. -/
theorem c5_truncation_witness :
    (0 : ℚ) ≤ 1 ∧ (0 : ℚ) < 90 ∧ beatsToMs 1 90 = ⌊(60000 : ℚ) / 90 * 1⌋ :=
  ⟨by norm_num, by norm_num, (c5_truncation 1 90 (by norm_num) (by norm_num)).1⟩

/-- C7: for every pitch p in [0,127], resolving p's canonical sharp-spelled
note name (sharp pitch-class name followed by octave `p / 12 - 1`) through
the pitch resolver yields p. -/
theorem c7_roundtrip : ∀ p : ℕ, p < 128 →
    noteNameToMidi (midiToNoteName p) = .ok (.midi p) := by
  with_unfolding_all decide

/-- Witness for C7 at pitch 60 (middle C). -/
theorem c7_roundtrip_witness :
    noteNameToMidi (midiToNoteName 60) = .ok (.midi 60) :=
  c7_roundtrip 60 (by decide)

/-- C8 counterexample: the non-positive numeric tokens `"-2"` and `"0"` are
accepted by the duration resolver (no positivity check), contradicting
"a non-positive numeric token is not accepted". -/
theorem c8_counterexample :
    parseDuration "-2".data = .ok (-2) ∧ parseDuration "0".data = .ok 0 ∧
    (-2 : ℚ) ≤ 0 := by
  with_unfolding_all decide

/-- C8 (amended): `w,h,q,e,s` (case-insensitive) resolve to
`4, 2, 1, 0.5, 0.25` beats; any other token resolves exactly when it is a
literal real number of either sign (non-positive values included), and
fails with the invalid-duration error otherwise. -/
theorem c8_duration :
    (parseDuration "w".data = .ok 4 ∧ parseDuration "W".data = .ok 4 ∧
     parseDuration "h".data = .ok 2 ∧ parseDuration "q".data = .ok 1 ∧
     parseDuration "e".data = .ok (1/2) ∧ parseDuration "s".data = .ok (1/4) ∧
     parseDuration "S".data = .ok (1/4)) ∧
    parseDuration "0.5".data = .ok (1/2) ∧
    parseDuration "0".data = .ok 0 ∧ parseDuration "-2".data = .ok (-2) ∧
    parseDuration "abc".data = .error (.invalidDuration "abc") ∧
    (∀ t : List Char,
      (parseDuration t).toOption.isSome = true ↔
        ((alistGet (pyLower (pyStrip t)) durationMap).isSome = true ∨
         (pyFloat (pyLower (pyStrip t))).isSome = true)) := by
  refine ⟨by with_unfolding_all decide, by with_unfolding_all decide,
    by with_unfolding_all decide, by with_unfolding_all decide,
    by with_unfolding_all decide, ?_⟩
  intro t
  unfold parseDuration
  cases h1 : alistGet (pyLower (pyStrip t)) durationMap with
  | some v => simp [h1, Except.toOption]
  | none =>
    cases h2 : pyFloat (pyLower (pyStrip t)) with
    | some q => simp [h1, h2, Except.toOption]
    | none => simp [h1, h2, Except.toOption]

theorem foldl_max_self_le (l : List ℚ) : ∀ a : ℚ, a ≤ l.foldl max a := by
  induction l with
  | nil => intro a; exact le_refl a
  | cons y ys ih => intro a; exact le_trans (le_max_left a y) (ih (max a y))

theorem foldl_max_le_of_mem (l : List ℚ) : ∀ a : ℚ, ∀ q ∈ l, q ≤ l.foldl max a := by
  induction l with
  | nil => intro a q hq; cases hq
  | cons y ys ih =>
    intro a q hq
    rcases List.mem_cons.mp hq with h | h
    · subst h
      exact le_trans (le_max_right a q) (foldl_max_self_le ys (max a q))
    · exact ih (max a y) q h

theorem foldl_max_mem (l : List ℚ) : ∀ a : ℚ, l.foldl max a = a ∨ l.foldl max a ∈ l := by
  induction l with
  | nil => intro a; exact Or.inl rfl
  | cons y ys ih =>
    intro a
    rcases ih (max a y) with h | h
    · rcases max_choice a y with hm | hm
      · exact Or.inl (by rw [List.foldl_cons, h, hm])
      · exact Or.inr (by rw [List.foldl_cons, h, hm]; exact List.mem_cons_self y ys)
    · exact Or.inr (List.mem_cons_of_mem y h)

theorem lookAux_spec (l : List SeqItem) : ∀ (count : ℕ) (total : ℚ), count ≤ 3 →
    lookAux l count total =
      (total + (((l.filter (fun e => !isTrioleItem e)).take (3 - count)).map
          eventNominalBeats).sum,
       count + ((l.filter (fun e => !isTrioleItem e)).take (3 - count)).length) := by
  induction l with
  | nil => intro c t _; simp [lookAux]
  | cons e rest ih =>
    intro c t hc
    have hunf : lookAux (e :: rest) c t =
        if c < 3 then
          (if isTrioleItem e = true then lookAux rest c t
           else lookAux rest (c + 1) (t + eventNominalBeats e))
        else (t, c) := rfl
    rcases Nat.lt_or_ge c 3 with h3 | h3
    · by_cases ht : isTrioleItem e = true
      · have hfil : (e :: rest).filter (fun e => !isTrioleItem e) =
            rest.filter (fun e => !isTrioleItem e) := by
          simp [List.filter_cons, ht]
        rw [hunf, if_pos h3, if_pos ht, hfil]
        exact ih c t hc
      · have ht' : isTrioleItem e = false := by simpa using ht
        have hstep : 3 - c = (3 - (c + 1)) + 1 := by omega
        have hfil : (e :: rest).filter (fun e => !isTrioleItem e) =
            e :: rest.filter (fun e => !isTrioleItem e) := by
          simp [List.filter_cons, ht']
        rw [hunf, if_pos h3, if_neg ht, hfil, hstep, List.take_succ_cons,
          List.map_cons, List.sum_cons, List.length_cons,
          ih (c + 1) (t + eventNominalBeats e) (by omega), Prod.mk.injEq]
        exact ⟨by ring, by omega⟩
    · have hc3 : c = 3 := le_antisymm hc h3
      subst hc3
      rw [hunf, if_neg (by omega)]
      simp

/-- C4: on a Triplet control with base unit b at position `startIdx`, the
scale computation inspects exactly the next up-to-3 non-control events
(the first 3 entries of the control-filtered remainder), sums their nominal
beat lengths, yields `(1, 0)` when no event was found or the sum is not
positive, and `((2*b)/sum, count)` otherwise; and the nominal beat length
of a variable-duration chord is the maximum of its members' durations
(a member's duration that bounds all members' durations). -/
theorem c4_triplet_lookahead :
    (∀ (seq : List SeqItem) (startIdx : ℕ) (baseUnit : ℚ),
      computeTrioleScale seq startIdx baseUnit =
        (if (((seq.drop (startIdx + 1)).filter (fun e => !isTrioleItem e)).take 3) = [] ∨
            ((((seq.drop (startIdx + 1)).filter (fun e => !isTrioleItem e)).take 3).map
                eventNominalBeats).sum ≤ 0
         then (1, 0)
         else ((2 * baseUnit) /
                ((((seq.drop (startIdx + 1)).filter (fun e => !isTrioleItem e)).take 3).map
                    eventNominalBeats).sum,
              (((seq.drop (startIdx + 1)).filter (fun e => !isTrioleItem e)).take 3).length))) ∧
    (∀ (x : ℕ × ℚ) (xs : List (ℕ × ℚ)),
      eventNominalBeats (SeqItem.varChord (x :: xs)) ∈ (x :: xs).map Prod.snd ∧
      ∀ q ∈ (x :: xs).map Prod.snd, q ≤ eventNominalBeats (SeqItem.varChord (x :: xs))) := by
  constructor
  · intro seq i b
    unfold computeTrioleScale trioleScaleFrom
    rw [lookAux_spec _ 0 0 (by omega)]
    dsimp only
    simp only [zero_add, Nat.sub_zero]
    by_cases hnil : ((seq.drop (i + 1)).filter (fun e => !isTrioleItem e)).take 3 = []
    · rw [if_pos (Or.inl (List.length_eq_zero.mpr hnil)), if_pos (Or.inl hnil)]
    · by_cases hsum :
        ((((seq.drop (i + 1)).filter (fun e => !isTrioleItem e)).take 3).map
          eventNominalBeats).sum ≤ 0
      · rw [if_pos (Or.inr hsum), if_pos (Or.inr hsum)]
      · rw [if_neg ?hcond, if_neg ?hcond2]
        case hcond =>
          intro h
          rcases h with h | h
          · exact hnil (List.length_eq_zero.mp h)
          · exact hsum h
        case hcond2 =>
          intro h
          rcases h with h | h
          · exact hnil h
          · exact hsum h
  · intro x xs
    have hnom : eventNominalBeats (.varChord (x :: xs)) = (xs.map Prod.snd).foldl max x.2 := by
      simp [eventNominalBeats, List.foldl_map]
    constructor
    · rw [hnom, List.map_cons]
      rcases foldl_max_mem (xs.map Prod.snd) x.2 with h | h
      · rw [h]; exact List.mem_cons_self _ _
      · exact List.mem_cons_of_mem _ h
    · intro q hq
      rw [hnom]
      rw [List.map_cons] at hq
      rcases List.mem_cons.mp hq with h | h
      · subst h; exact foldl_max_self_le _ _
      · exact foldl_max_le_of_mem _ _ q h

theorem setTrack_anyLabeled (fs : FState) (lab : Char) (evs : List SeqItem) :
    (setTrack fs lab evs).anyLabeled = true := by
  unfold setTrack
  by_cases hl : lab = 'L' <;> simp [hl]

theorem fileAux_anyLabeled (lines : List (List Char)) : ∀ (fs fs' : FState),
    fileAux lines fs = .ok fs' →
    fs'.anyLabeled = (fs.anyLabeled || lines.any (fun raw =>
      !(decide (pyStrip raw = [] ∨ (pyStrip raw).head? = some '#')) &&
        (matchLabel (pyStrip raw)).isSome)) := by
  induction lines with
  | nil =>
    intro fs fs' h
    simp only [fileAux, Except.ok.injEq] at h
    subst h
    simp
  | cons raw rest ih =>
    intro fs fs' h
    rw [List.any_cons]
    by_cases hskip : pyStrip raw = [] ∨ (pyStrip raw).head? = some '#'
    · simp only [fileAux, if_pos hskip] at h
      rw [ih fs fs' h]
      simp [hskip]
    · simp only [fileAux, if_neg hskip] at h
      split at h
      · rename_i lab body hm
        split at h
        · cases h
        · rw [ih _ _ h, setTrack_anyLabeled]
          simp [hskip, hm]
      · rename_i hm
        split at h
        · cases h
        · rw [ih _ _ h]
          simp [hskip, hm]

/-- C2 counterexample: a file with no `L:`/`R:` line compiles to a score
containing only the `R` key — the `L` key is absent, contradicting "always
contains both keys". -/
theorem c2_counterexample :
    parseSequenceFileText "C4:q" = .ok [("R", [.note 60 1])] ∧
    alistGet "L" [(("R" : String), [SeqItem.note 60 1])] = none := by
  with_unfolding_all decide

/-- C2 (amended): a successfully compiled score always contains the `R`
key; it contains the `L` key exactly when the input has at least one
labeled (`L:`/`R:`) line — an unlabeled file yields `{R: ...}` only. -/
theorem c2_score_keys (text : String) (score : List (String × List SeqItem))
    (h : parseSequenceFileText text = .ok score) :
    (alistGet "R" score).isSome = true ∧
    ((alistGet "L" score).isSome = true ↔ anyLabeledLine text = true) := by
  have hRL : ("R" : String) ≠ "L" := by decide
  unfold parseSequenceFileText at h
  cases hfa : fileAux (splitOnChar '\n' text.data) ⟨none, none, [], false⟩ with
  | error e => rw [hfa] at h; cases h
  | ok fs =>
    rw [hfa] at h
    dsimp only at h
    have hany := fileAux_anyLabeled _ _ _ hfa
    simp only [Bool.false_or] at hany
    have hal : anyLabeledLine text = fs.anyLabeled := by
      rw [hany]; rfl
    by_cases hl : fs.anyLabeled = true
    · rw [if_pos hl] at h
      cases h
      constructor
      · simp [alistGet, hRL]
      · simp [alistGet, hal, hl]
    · rw [if_neg hl] at h
      cases h
      constructor
      · simp [alistGet]
      · have : ("L" : String) ≠ "R" := by decide
        simp [alistGet, this, hal]
        exact Bool.eq_false_iff.mpr hl

/-- Witness for C2 (amended) at a concrete labeled file. -/
theorem c2_score_keys_witness :
    parseSequenceFileText "L: C4:q" = .ok [("L", [SeqItem.note 60 1]), ("R", [])] ∧
    (alistGet "R" [(("L" : String), [SeqItem.note 60 1]), ("R", ([] : List SeqItem))]).isSome
      = true :=
  ⟨by with_unfolding_all decide,
   (c2_score_keys "L: C4:q" [("L", [SeqItem.note 60 1]), ("R", [])]
     (by with_unfolding_all decide)).1⟩

theorem matchLabel_some (line : List Char) (l : Char) (body : List Char)
    (h : matchLabel line = some (l, body)) : l = 'L' ∨ l = 'R' := by
  unfold matchLabel at h
  split at h
  · split at h
    · cases h; exact Or.inl rfl
    · split at h
      · cases h; exact Or.inr rfl
      · cases h
  · cases h

theorem lineBody_some_labeled (lab : Char) (raw body : List Char)
    (h : lineBody lab raw = some body) :
    (!decide (pyStrip raw = [] ∨ (pyStrip raw).head? = some '#') &&
      (matchLabel (pyStrip raw)).isSome) = true := by
  unfold lineBody at h
  by_cases hskip : pyStrip raw = [] ∨ (pyStrip raw).head? = some '#'
  · rw [if_pos hskip] at h; cases h
  · rw [if_neg hskip] at h
    cases hm : matchLabel (pyStrip raw) with
    | none => rw [hm] at h; cases h
    | some pr => simp [hskip, hm]

theorem lineBody_of_matchLabel (lab : Char) (raw : List Char)
    (hskip : ¬(pyStrip raw = [] ∨ (pyStrip raw).head? = some '#')) :
    lineBody lab raw =
      (match matchLabel (pyStrip raw) with
       | some (l, body) => if l = lab then some body else none
       | none => none) := by
  unfold lineBody
  rw [if_neg hskip]

theorem fileAux_lastBody (lab : Char) (hlab : lab = 'L' ∨ lab = 'R')
    (lines : List (List Char)) : ∀ fs fs',
    fileAux lines fs = .ok fs' →
    ((lines.filterMap (lineBody lab)).getLast? = none →
      (if lab = 'L' then fs'.trL else fs'.trR) = (if lab = 'L' then fs.trL else fs.trR)) ∧
    (∀ b, (lines.filterMap (lineBody lab)).getLast? = some b →
      ∃ evs, parseSeqLineL b = .ok evs ∧
        (if lab = 'L' then fs'.trL else fs'.trR) = some evs) := by
  induction lines with
  | nil =>
    intro fs fs' h
    simp only [fileAux, Except.ok.injEq] at h
    subst h
    constructor
    · intro _; rfl
    · intro b hb; cases hb
  | cons raw rest ih =>
    intro fs fs' h
    by_cases hskip : pyStrip raw = [] ∨ (pyStrip raw).head? = some '#'
    · simp only [fileAux, if_pos hskip] at h
      have hlb : lineBody lab raw = none := by
        unfold lineBody; rw [if_pos hskip]
      rw [List.filterMap_cons, hlb]
      exact ih fs fs' h
    · simp only [fileAux, if_neg hskip] at h
      rw [List.filterMap_cons, lineBody_of_matchLabel lab raw hskip]
      split at h
      · rename_i l body hm
        have hl' := matchLabel_some _ _ _ hm
        split at h
        · cases h
        · rename_i evs hp
          obtain ⟨ihn, ihs⟩ := ih _ _ h
          by_cases heq : l = lab
          · rw [if_pos heq]
            show ((body :: rest.filterMap (lineBody lab)).getLast? = none →
                  (if lab = 'L' then fs'.trL else fs'.trR) =
                    (if lab = 'L' then fs.trL else fs.trR)) ∧
                (∀ b, (body :: rest.filterMap (lineBody lab)).getLast? = some b →
                  ∃ evs, parseSeqLineL b = .ok evs ∧
                    (if lab = 'L' then fs'.trL else fs'.trR) = some evs)
            have hset : (if lab = 'L' then (setTrack fs l evs).trL
                else (setTrack fs l evs).trR) = some evs := by
              subst heq
              rcases hlab with h1 | h1 <;> subst h1 <;> simp [setTrack]
            constructor
            · intro hnone
              rw [List.getLast?_eq_none_iff] at hnone
              cases hnone
            · intro b hb
              cases hrest : rest.filterMap (lineBody lab) with
              | nil =>
                rw [hrest] at hb
                have hone : ([body] : List (List Char)).getLast? = some body := rfl
                rw [hone] at hb
                cases hb
                refine ⟨evs, hp, ?_⟩
                rw [ihn (by rw [hrest]; rfl), hset]
              | cons x xs =>
                rw [hrest] at hb
                rw [List.getLast?_cons_cons] at hb
                exact ihs b (by rw [hrest]; exact hb)
          · rw [if_neg heq]
            show ((rest.filterMap (lineBody lab)).getLast? = none →
                  (if lab = 'L' then fs'.trL else fs'.trR) =
                    (if lab = 'L' then fs.trL else fs.trR)) ∧
                (∀ b, (rest.filterMap (lineBody lab)).getLast? = some b →
                  ∃ evs, parseSeqLineL b = .ok evs ∧
                    (if lab = 'L' then fs'.trL else fs'.trR) = some evs)
            have hset : (if lab = 'L' then (setTrack fs l evs).trL
                else (setTrack fs l evs).trR) = (if lab = 'L' then fs.trL else fs.trR) := by
              rcases hlab with h1 | h1 <;> subst h1 <;>
                rcases hl' with h2 | h2 <;> subst h2 <;>
                  simp_all [setTrack]
            constructor
            · intro hnone
              rw [ihn hnone, hset]
            · intro b hb
              exact ihs b hb
      · split at h
        · cases h
        · have hres := ih _ fs' h
          exact hres

/-- C1 counterexample: in a file whose two lines both carry label `R`, the
compiled `R` track holds only the second line's events — the assignment
`tracks[label] = parse_sequence_line(body)` overwrites, it does not
concatenate (`[Note 62] ≠ [Note 60] ++ [Note 62]`). -/
theorem c1_counterexample :
    parseSequenceLine "C4:q" = .ok [.note 60 1] ∧
    parseSequenceLine "D4:q" = .ok [.note 62 1] ∧
    parseSequenceFileText "R: C4:q\nR: D4:q" = .ok [("L", []), ("R", [.note 62 1])] ∧
    [SeqItem.note 62 1] ≠ [SeqItem.note 60 1] ++ [SeqItem.note 62 1] := by
  with_unfolding_all decide

/-- C1 (amended): for each label, the compiled track equals the parsed
events of the LAST line bearing that label — a later line with the same
label replaces the earlier one (assignment, not concatenation). -/
theorem c1_last_line_wins (text : String) (lab : Char) (hlab : lab = 'L' ∨ lab = 'R')
    (score : List (String × List SeqItem)) (h : parseSequenceFileText text = .ok score)
    (b : List Char) (hb : (labeledBodies lab text).getLast? = some b) :
    ∃ evs, parseSeqLineL b = .ok evs ∧ alistGet (String.mk [lab]) score = some evs := by
  unfold parseSequenceFileText at h
  cases hfa : fileAux (splitOnChar '\n' text.data) ⟨none, none, [], false⟩ with
  | error e => rw [hfa] at h; cases h
  | ok fs =>
    rw [hfa] at h
    dsimp only at h
    have hany := fileAux_anyLabeled _ _ _ hfa
    have hmem : b ∈ (splitOnChar '\n' text.data).filterMap (lineBody lab) :=
      List.mem_of_getLast?_eq_some hb
    obtain ⟨raw, hrawmem, hlb⟩ := List.mem_filterMap.mp hmem
    have hpred := lineBody_some_labeled lab raw b hlb
    have hanytrue : fs.anyLabeled = true := by
      rw [hany]
      simp only [Bool.false_or]
      exact List.any_eq_true.mpr ⟨raw, hrawmem, hpred⟩
    rw [if_pos hanytrue] at h
    cases h
    obtain ⟨ihn, ihs⟩ := fileAux_lastBody lab hlab _ _ _ hfa
    obtain ⟨evs, hp, hfield⟩ := ihs b hb
    refine ⟨evs, hp, ?_⟩
    rcases hlab with h1 | h1 <;> subst h1
    · rw [if_pos rfl] at hfield
      show alistGet "L" [("L", fs.trL.getD []), ("R", fs.trR.getD [])] = some evs
      have hkey : alistGet "L" [(("L" : String), fs.trL.getD []), ("R", fs.trR.getD [])] =
          some (fs.trL.getD []) := by
        simp [alistGet]
      rw [hkey, hfield]
      rfl
    · rw [if_neg (by decide)] at hfield
      show alistGet "R" [("L", fs.trL.getD []), ("R", fs.trR.getD [])] = some evs
      have hkey : alistGet "R" [(("L" : String), fs.trL.getD []), ("R", fs.trR.getD [])] =
          some (fs.trR.getD []) := by
        have : ("R" : String) ≠ "L" := by decide
        simp [alistGet, this]
      rw [hkey, hfield]
      rfl

/-- Witness for C1 (amended): two `R:` lines; the compiled `R` track is the
parse of the last one. -/
theorem c1_last_line_wins_witness :
    ∃ evs, parseSeqLineL "D4:q".data = .ok evs ∧
      alistGet (String.mk ['R']) [(("L" : String), ([] : List SeqItem)),
        ("R", [SeqItem.note 62 1])] = some evs :=
  c1_last_line_wins "R: C4:q\nR: D4:q" 'R' (Or.inr rfl)
    [("L", []), ("R", [SeqItem.note 62 1])] (by with_unfolding_all decide)
    "D4:q".data (by with_unfolding_all decide)

theorem pyStrip_subset (cs : List Char) : ∀ x ∈ pyStrip cs, x ∈ cs := by
  intro x hx
  unfold pyStrip at hx
  rw [List.mem_reverse] at hx
  have hx2 := (List.dropWhile_sublist (l := (cs.dropWhile isWs).reverse) isWs).subset hx
  rw [List.mem_reverse] at hx2
  exact (List.dropWhile_sublist (l := cs) isWs).subset hx2

theorem pyStrip_eq_nil_all_ws (cs : List Char) (h : pyStrip cs = []) :
    ∀ x ∈ cs, isWs x = true := by
  intro x hx
  unfold pyStrip at h
  rw [List.reverse_eq_nil_iff, List.dropWhile_eq_nil_iff] at h
  by_cases hws : isWs x = true
  · exact hws
  · exfalso
    rcases List.mem_append.mp ((List.takeWhile_append_dropWhile isWs cs) ▸ hx) with h1 | h1
    · exact hws (List.mem_takeWhile_imp h1)
    · exact hws (h x (List.mem_reverse.mpr h1))

theorem pyStrip_shape (a : List Char) (ha : ∀ x ∈ a, isWs x = true) (c : Char)
    (hc : isWs c = false) (r : List Char) :
    ∃ r', pyStrip (a ++ c :: r) = c :: r' ∧ ∀ x ∈ r', x ∈ r := by
  unfold pyStrip
  have h1 : (a ++ c :: r).dropWhile isWs = c :: r := by
    rw [List.dropWhile_append_of_pos ha, List.dropWhile_cons_of_neg (by simp [hc])]
  rw [h1, List.reverse_cons]
  cases hdw : (r.reverse).dropWhile isWs with
  | nil =>
    rw [List.dropWhile_append]
    rw [hdw]
    refine ⟨[], ?_, by intro x hx; cases hx⟩
    simp [hc]
  | cons y ys =>
    rw [List.dropWhile_append]
    rw [hdw]
    simp only [List.isEmpty_cons, Bool.false_eq_true, if_false]
    refine ⟨(y :: ys).reverse, by simp, ?_⟩
    intro x hx
    rw [List.mem_reverse] at hx
    have := (List.dropWhile_sublist (l := r.reverse) isWs).subset (hdw ▸ hx)
    exact List.mem_reverse.mp this

theorem tokLoop_unclosed (cs : List Char) : ∀ (parts : List (List Char))
    (current : List Char) (inBracket : Bool),
    cs.foldl (fun b c => if c = '[' then true else if c = ']' then false else b) inBracket
      = true →
    (inBracket = true →
      ∃ a b, current = a ++ '[' :: b ∧ (∀ x ∈ a, isWs x = true) ∧ ']' ∉ b) →
    ∃ t ∈ tokLoop cs parts current inBracket, t.head? = some '[' ∧ ']' ∉ t := by
  induction cs with
  | nil =>
    intro parts current inBracket hfold hinv
    obtain ⟨a, b, hcur, ha, hb⟩ := hinv hfold
    obtain ⟨b', hstrip, hb'⟩ := pyStrip_shape a ha '[' (by decide) b
    subst hcur
    show ∃ t ∈ (if pyStrip (a ++ '[' :: b) = [] then parts
        else parts ++ [pyStrip (a ++ '[' :: b)]), t.head? = some '[' ∧ ']' ∉ t
    rw [hstrip, if_neg (by simp)]
    refine ⟨'[' :: b', List.mem_append_right _ (List.mem_singleton.mpr rfl), rfl, ?_⟩
    intro hmem
    rcases List.mem_cons.mp hmem with h1 | h1
    · cases h1
    · exact hb (hb' _ h1)
  | cons c rest ih =>
    intro parts current inBracket hfold hinv
    rw [List.foldl_cons] at hfold
    have hunf : tokLoop (c :: rest) parts current inBracket =
        (if c = '[' then
          (if pyStrip current = [] then tokLoop rest parts (current ++ ['[']) true
           else tokLoop rest (parts ++ [pyStrip current]) ['['] true)
         else if c = ']' then
          (if pyStrip (current ++ [']']) = [] then tokLoop rest parts (current ++ [']']) false
           else tokLoop rest (parts ++ [pyStrip (current ++ [']'])]) [] false)
         else if (c = ',' ∨ c = ';' ∨ c = '|' ∨ c = ' ' ∨ c = '\t') ∧ ¬inBracket then
          (if pyStrip current = [] then tokLoop rest parts [] inBracket
           else tokLoop rest (parts ++ [pyStrip current]) [] inBracket)
         else tokLoop rest parts (current ++ [c]) inBracket) := rfl
    rw [hunf]
    by_cases hc1 : c = '['
    · rw [if_pos hc1]
      subst hc1
      rw [if_pos rfl] at hfold
      by_cases hcur : pyStrip current = []
      · rw [if_pos hcur]
        refine ih _ _ _ hfold ?_
        intro _
        exact ⟨current, [], by simp, pyStrip_eq_nil_all_ws current hcur, by simp⟩
      · rw [if_neg hcur]
        refine ih _ _ _ hfold ?_
        intro _
        exact ⟨[], [], rfl, by simp, by simp⟩
    · by_cases hc2 : c = ']'
      · rw [if_neg hc1, if_pos hc2]
        subst hc2
        rw [if_neg (by decide), if_pos rfl] at hfold
        by_cases hcur : pyStrip (current ++ [']']) = []
        · rw [if_pos hcur]
          exact ih _ _ _ hfold (fun h => nomatch h)
        · rw [if_neg hcur]
          exact ih _ _ _ hfold (fun h => nomatch h)
      · rw [if_neg hc1, if_neg hc2]
        rw [if_neg hc1, if_neg hc2] at hfold
        by_cases hsep : (c = ',' ∨ c = ';' ∨ c = '|' ∨ c = ' ' ∨ c = '\t') ∧ ¬inBracket = true
        · rw [if_pos hsep]
          by_cases hcur : pyStrip current = []
          · rw [if_pos hcur]; exact ih _ _ _ hfold (fun h => absurd h hsep.2)
          · rw [if_neg hcur]; exact ih _ _ _ hfold (fun h => absurd h hsep.2)
        · rw [if_neg hsep]
          refine ih _ _ _ hfold ?_
          intro hib
          obtain ⟨a, b, hcur, ha, hb⟩ := hinv hib
          refine ⟨a, b ++ [c], by rw [hcur]; simp, ha, ?_⟩
          intro hmem
          rcases List.mem_append.mp hmem with h1 | h1
          · exact hb h1
          · rcases List.mem_singleton.mp h1 with h2
            exact hc2 h2.symm

theorem alistGet_none_of_head {β : Type} (k : List Char) (c : Char) (hk : k.head? = some c)
    (entries : List (List Char × β)) (h : ∀ e ∈ entries, e.1.head? ≠ some c) :
    alistGet k entries = none := by
  induction entries with
  | nil => rfl
  | cons e rest ih =>
    show (if k = e.1 then some e.2 else alistGet k rest) = none
    rw [if_neg, ih (fun e' he' => h e' (List.mem_cons_of_mem _ he'))]
    intro hke
    exact h e (List.mem_cons_self _ _) (by rw [← hke, hk])

theorem trioleMatch_lbracket (t' : List Char) : trioleMatch ('[' :: t') = none := by
  unfold trioleMatch
  have h1 : ('[' :: t').dropWhile isWs = '[' :: t' :=
    List.dropWhile_cons_of_neg (by decide)
  rw [h1]
  have h2 : dropLitCI ('[' :: t') "triole".data = none := by
    show (if '['.toLower = 't' then dropLitCI t' "riole".data else none) = none
    rw [if_neg (by decide)]
  rw [h2]

theorem noteNameToMidi_lbracket (u : List Char) (hh : u.head? = some '[') :
    ∃ e, noteNameToMidi u = .error e := by
  cases u with
  | nil => cases hh
  | cons c r =>
    cases hh
    obtain ⟨r', hstrip, _⟩ := pyStrip_shape [] (by intro x hx; cases hx) '[' (by decide) r
    rw [show ([] : List Char) ++ '[' :: r = '[' :: r from rfl] at hstrip
    unfold noteNameToMidi
    rw [hstrip]
    have hr : ¬(pyLower ('[' :: r') = "r".data ∨ pyLower ('[' :: r') = "rest".data) := by
      intro hcon
      rcases hcon with hcon | hcon <;> cases hcon
    rw [if_neg hr]
    rw [alistGet_none_of_head ('[' :: r') '[' rfl restMap (by decide)]
    have hdig : ¬(isDigitStr ('[' :: r') = true ∨
        (('[' :: r').head? = some '-' ∧ isDigitStr (('[' :: r').drop 1) = true)) := by
      intro hcon
      rcases hcon with hcon | hcon
      · simp [isDigitStr] at hcon
      · cases hcon.1
    rw [if_neg hdig]
    dsimp only [Option.isSome]
    by_cases hlen : ('[' :: r').length < 2
    · rw [if_pos hlen]
      exact ⟨_, rfl⟩
    · rw [if_neg hlen]
      set pc := if (3 ≤ ('[' :: r').length && (('[' :: r').getD 1 ' ' = '#' ||
          ('[' :: r').getD 1 ' ' = 'b') : Bool) = true
        then ('[' :: r').take 2 else ('[' :: r').take 1 with hpc
      have hpchead : pc.head? = some '[' := by
        rw [hpc]
        by_cases hacc : (3 ≤ ('[' :: r').length && (('[' :: r').getD 1 ' ' = '#' ||
            ('[' :: r').getD 1 ' ' = 'b') : Bool) = true
        · rw [if_pos hacc]; rfl
        · rw [if_neg hacc]; rfl
      rw [alistGet_none_of_head pc '[' hpchead pcsMap (by decide)]
      exact ⟨_, rfl⟩

theorem splitOnChar_sub (sep : Char) (l : List Char) :
    ∀ piece ∈ splitOnChar sep l, ∀ x ∈ piece, x ∈ l := by
  induction l with
  | nil =>
    intro piece hp x hx
    rcases List.mem_singleton.mp hp with h
    subst h; cases hx
  | cons c rest ih =>
    intro piece hp x hx
    have hunf : splitOnChar sep (c :: rest) =
        (match splitOnChar sep rest with
         | [] => [[c]]
         | h :: t => if c = sep then [] :: h :: t else (c :: h) :: t) := rfl
    rw [hunf] at hp
    cases hr : splitOnChar sep rest with
    | nil =>
      rw [hr] at hp
      rcases List.mem_singleton.mp hp with h
      subst h
      rcases List.mem_singleton.mp hx with h2
      subst h2
      exact List.mem_cons_self _ _
    | cons h0 t0 =>
      rw [hr] at hp
      have hp' : piece ∈ (if c = sep then [] :: h0 :: t0 else (c :: h0) :: t0) := hp
      by_cases hcs : c = sep
      · rw [if_pos hcs] at hp'
        rcases List.mem_cons.mp hp' with h1 | h1
        · subst h1; cases hx
        · exact List.mem_cons_of_mem _ (ih piece (hr ▸ h1) x hx)
      · rw [if_neg hcs] at hp'
        rcases List.mem_cons.mp hp' with h1 | h1
        · subst h1
          rcases List.mem_cons.mp hx with h2 | h2
          · subst h2; exact List.mem_cons_self _ _
          · exact List.mem_cons_of_mem _
              (ih h0 (hr ▸ List.mem_cons_self _ _) x h2)
        · exact List.mem_cons_of_mem _
            (ih piece (hr ▸ List.mem_cons_of_mem _ h1) x hx)

theorem splitOnChar_head_shape (sep c : Char) (hc : ¬c = sep) (r : List Char) :
    ∃ h' t', splitOnChar sep (c :: r) = (c :: h') :: t' := by
  have hunf : splitOnChar sep (c :: r) =
      (match splitOnChar sep r with
       | [] => [[c]]
       | h :: t => if c = sep then [] :: h :: t else (c :: h) :: t) := rfl
  rw [hunf]
  cases hr : splitOnChar sep r with
  | nil => exact ⟨[], [], rfl⟩
  | cons h0 t0 =>
    refine ⟨h0, t0, ?_⟩
    show (if c = sep then [] :: h0 :: t0 else (c :: h0) :: t0) = (c :: h0) :: t0
    rw [if_neg hc]

theorem plusNotes_head_error (it : List Char) (rest : List (List Char)) (e : SeqErr)
    (he : noteNameToMidi it = .error e) (hne : ¬it = []) :
    plusNotes (it :: rest) = .error e := by
  unfold plusNotes
  rw [if_neg hne, he]

theorem parseNoteGroup_bracket_error (t : List Char) (hh : t.head? = some '[')
    (hnb : ']' ∉ t) : ∃ e, parseNoteGroup t = .error e := by
  cases t with
  | nil => cases hh
  | cons c r =>
    cases hh
    obtain ⟨r', hstrip, hsub⟩ := pyStrip_shape [] (by intro x hx; cases hx) '[' (by decide) r
    rw [show ([] : List Char) ++ '[' :: r = '[' :: r from rfl] at hstrip
    unfold parseNoteGroup
    rw [hstrip]
    have hguard : ¬(('[' :: r').head? = some '[' ∧ ('[' :: r').getLast? = some ']') := by
      intro hcon
      have hm := List.mem_of_getLast?_eq_some hcon.2
      rcases List.mem_cons.mp hm with h1 | h1
      · cases h1
      · exact hnb (List.mem_cons_of_mem _ (hsub _ h1))
    rw [if_neg hguard]
    obtain ⟨h', t', hsplit⟩ := splitOnChar_head_shape '+' '[' (by decide) r'
    rw [hsplit]
    obtain ⟨e, he⟩ := noteNameToMidi_lbracket ('[' :: h') rfl
    rw [plusNotes_head_error _ _ _ he (by simp)]
    exact ⟨e, rfl⟩

theorem rsplitOnColon_cons_unf (c : Char) (rest : List Char) :
    rsplitOnColon (c :: rest) =
      (if ':' ∈ rest then (c :: (rsplitOnColon rest).1, (rsplitOnColon rest).2)
       else if c = ':' then ([], rest) else (c :: rest, [])) := by
  show (if ':' ∈ rest then
      (match rsplitOnColon rest with | (a, b) => (c :: a, b))
    else if c = ':' then ([], rest) else (c :: rest, [])) = _
  by_cases h : ':' ∈ rest
  · rw [if_pos h]
  · rw [if_neg h]

theorem rsplit_fst_head (r : List Char) :
    ((rsplitOnColon ('[' :: r)).1).head? = some '[' := by
  rw [rsplitOnColon_cons_unf]
  by_cases h : ':' ∈ r
  · rw [if_pos h]; rfl
  · rw [if_neg h, if_neg (by decide : ¬('[' : Char) = ':')]; rfl

theorem rsplit_fst_sub (cs : List Char) : ∀ x ∈ (rsplitOnColon cs).1, x ∈ cs := by
  induction cs with
  | nil => intro x hx; cases hx
  | cons c rest ih =>
    intro x hx
    rw [rsplitOnColon_cons_unf] at hx
    by_cases h : ':' ∈ rest
    · rw [if_pos h] at hx
      rcases List.mem_cons.mp hx with h1 | h1
      · subst h1; exact List.mem_cons_self _ _
      · exact List.mem_cons_of_mem _ (ih x h1)
    · rw [if_neg h] at hx
      by_cases h2 : c = ':'
      · rw [if_pos h2] at hx; cases hx
      · rw [if_neg h2] at hx; exact hx

theorem parsePart_step5_error (part : List Char) (h1 : trioleMatch part = none)
    (h2 : alistGet part restMap = none)
    (h3 : ¬(part.head? = some '[' ∧ part.getLast? = some ']'))
    (h4 : ':' ∈ part) (e : SeqErr)
    (he : parseNoteGroup (rsplitOnColon part).1 = .error e) :
    parsePart part = .error e := by
  unfold parsePart
  split
  · rename_i u hequ
    rw [h1] at hequ; cases hequ
  · split
    · rename_i v heqv
      rw [h2] at heqv; cases heqv
    · rw [if_neg h3, if_neg (not_not_intro h4)]
      split
      rename_i noteTok durTok heq
      have he' : parseNoteGroup noteTok = .error e := by
        have hfst : (rsplitOnColon part).1 = noteTok := by rw [heq]
        rw [hfst] at he
        exact he
      split
      · rename_i e2 heq2
        rw [heq2] at he'
        cases he'
        rfl
      · rename_i g heq2
        rw [heq2] at he'
        cases he'

theorem parsePart_bracket_error (t : List Char) (hh : t.head? = some '[')
    (hnb : ']' ∉ t) : ∃ e, parsePart t = .error e := by
  cases t with
  | nil => cases hh
  | cons c r =>
    cases hh
    have h1 := trioleMatch_lbracket r
    have h2 := alistGet_none_of_head ('[' :: r) '[' rfl restMap (by decide)
    have h3 : ¬(('[' :: r).head? = some '[' ∧ ('[' :: r).getLast? = some ']') := by
      intro hcon
      exact hnb (List.mem_of_getLast?_eq_some hcon.2)
    by_cases h4 : ':' ∈ ('[' :: r)
    · obtain ⟨e, he⟩ := parseNoteGroup_bracket_error ((rsplitOnColon ('[' :: r)).1)
        (rsplit_fst_head r) (fun hm => hnb (rsplit_fst_sub _ _ hm))
      exact ⟨e, parsePart_step5_error _ h1 h2 h3 h4 e he⟩
    · refine ⟨.invalidToken (String.mk ('[' :: r)), ?_⟩
      unfold parsePart
      split
      · rename_i u hequ
        rw [h1] at hequ; cases hequ
      · split
        · rename_i v heqv
          rw [h2] at heqv; cases heqv
        · rw [if_neg h3, if_pos h4]

theorem mapM_parsePart_error (parts : List (List Char)) : ∀ t ∈ parts,
    (∃ e, parsePart t = .error e) → ∃ e', parts.mapM parsePart = .error e' := by
  induction parts with
  | nil => intro t ht; cases ht
  | cons p ps ih =>
    intro t ht hee
    obtain ⟨e, he⟩ := hee
    rw [List.mapM_cons]
    cases hp : parsePart p with
    | error e0 => exact ⟨e0, rfl⟩
    | ok b =>
      rcases List.mem_cons.mp ht with h1 | h1
      · subst h1; rw [hp] at he; cases he
      · obtain ⟨e', he'⟩ := ih t h1 ⟨e, he⟩
        refine ⟨e', ?_⟩
        rw [he']
        rfl

theorem unclosed_mem (cs : List Char) : ∀ b : Bool,
    cs.foldl (fun b c => if c = '[' then true else if c = ']' then false else b) b = true →
    b = true ∨ '[' ∈ cs := by
  induction cs with
  | nil => intro b hb; exact Or.inl hb
  | cons c rest ih =>
    intro b hb
    rw [List.foldl_cons] at hb
    rcases ih _ hb with h1 | h1
    · by_cases hc1 : c = '['
      · exact Or.inr (hc1 ▸ List.mem_cons_self _ _)
      · by_cases hc2 : c = ']'
        · rw [if_neg hc1, if_pos hc2] at h1; cases h1
        · rw [if_neg hc1, if_neg hc2] at h1; exact Or.inl h1
    · exact Or.inr (List.mem_cons_of_mem _ h1)

/-- C3 counterexample: parsing the single token `"[C4:q"` (unterminated
bracket) fails with the invalid-note error carrying `"[C4"` — the code has
no unbalanced-bracket error at all, so the failure is not an
UnbalancedBracket error. -/
theorem c3_counterexample :
    parseSequenceLine "[C4:q" = .error (.invalidNote "[C4") := by
  with_unfolding_all decide

/-- C3 (amended): every line containing a `[` that is never closed before
end of line fails to parse — but with one of the parser's ordinary errors
(invalid note / invalid token), since the source raises no dedicated
unbalanced-bracket error. -/
theorem c3_unclosed_fails (s : String) (h : hasUnclosedBracket s.data = true) :
    ∃ e, parseSequenceLine s = .error e := by
  unfold parseSequenceLine parseSeqLineL
  have hlb : '[' ∈ s.data := by
    rcases unclosed_mem s.data false h with h1 | h1
    · cases h1
    · exact h1
  have hne : ¬pyStrip s.data = [] := by
    intro hnil
    exact absurd (pyStrip_eq_nil_all_ws _ hnil '[' hlb) (by decide)
  rw [if_neg hne]
  obtain ⟨t, htmem, hthead, htnb⟩ :=
    tokLoop_unclosed s.data [] [] false h (fun hh => nomatch hh)
  exact mapM_parsePart_error _ t htmem (parsePart_bracket_error t hthead htnb)

/-- Witness for C3 (amended) at the unterminated token `"[C4:q"`. -/
theorem c3_unclosed_fails_witness :
    ∃ e, parseSequenceLine "[C4:q" = .error e :=
  c3_unclosed_fails "[C4:q" (by with_unfolding_all decide)

theorem count_on_map_on (p : ℕ) (l : List ℕ) :
    (l.map Call.on).count (Call.on p) = l.count p := by
  induction l with
  | nil => rfl
  | cons x xs ih =>
    simp only [List.map_cons, List.count_cons, ih, beq_iff_eq, Call.on.injEq]

theorem count_on_map_off (p : ℕ) (l : List ℕ) :
    (l.map Call.off).count (Call.on p) = 0 := by
  induction l with
  | nil => rfl
  | cons x xs ih =>
    simp only [List.map_cons, List.count_cons, ih, beq_iff_eq]
    simp

theorem count_off_map_off (p : ℕ) (l : List ℕ) :
    (l.map Call.off).count (Call.off p) = l.count p := by
  induction l with
  | nil => rfl
  | cons x xs ih =>
    simp only [List.map_cons, List.count_cons, ih, beq_iff_eq, Call.off.injEq]

theorem count_off_map_on (p : ℕ) (l : List ℕ) :
    (l.map Call.on).count (Call.off p) = 0 := by
  induction l with
  | nil => rfl
  | cons x xs ih =>
    simp only [List.map_cons, List.count_cons, ih, beq_iff_eq]
    simp

theorem setAdd_mem (pl : List ℕ) (n p : ℕ) : p ∈ setAdd pl n ↔ p ∈ pl ∨ p = n := by
  unfold setAdd
  by_cases h : n ∈ pl
  · rw [if_pos h]
    exact ⟨Or.inl, fun hc => hc.elim id (fun he => he ▸ h)⟩
  · rw [if_neg h]
    simp [List.mem_append]

theorem setAdd_nodup (pl : List ℕ) (n : ℕ) (h : pl.Nodup) : (setAdd pl n).Nodup := by
  unfold setAdd
  by_cases hn : n ∈ pl
  · rw [if_pos hn]; exact h
  · rw [if_neg hn]
    simp [List.nodup_append, h, hn]

theorem addAll_mem (ns : List ℕ) : ∀ (pl : List ℕ) (p : ℕ),
    p ∈ addAll pl ns ↔ p ∈ pl ∨ p ∈ ns := by
  induction ns with
  | nil => intro pl p; simp [addAll]
  | cons n ns' ih =>
    intro pl p
    rw [show addAll pl (n :: ns') = addAll (setAdd pl n) ns' from rfl, ih, setAdd_mem]
    simp [List.mem_cons]
    tauto

theorem addAll_nodup (ns : List ℕ) : ∀ pl : List ℕ, pl.Nodup → (addAll pl ns).Nodup := by
  induction ns with
  | nil => intro pl h; exact h
  | cons n ns' ih =>
    intro pl h
    exact ih (setAdd pl n) (setAdd_nodup pl n h)

theorem removeAll_nodup (ns : List ℕ) : ∀ pl : List ℕ, pl.Nodup → (removeAll pl ns).Nodup := by
  induction ns with
  | nil => intro pl h; exact h
  | cons n ns' ih =>
    intro pl h
    exact ih (setDiscard pl n) (h.erase n)

theorem removeAll_mem (ns : List ℕ) : ∀ pl : List ℕ, pl.Nodup → ∀ p : ℕ,
    (p ∈ removeAll pl ns ↔ p ∈ pl ∧ p ∉ ns) := by
  induction ns with
  | nil => intro pl _ p; simp [removeAll]
  | cons n ns' ih =>
    intro pl h p
    rw [show removeAll pl (n :: ns') = removeAll (setDiscard pl n) ns' from rfl,
      ih (setDiscard pl n) (h.erase n)]
    unfold setDiscard
    rw [h.mem_erase_iff]
    simp [List.mem_cons]
    tauto

theorem tripConsume_current (st : TrackSt) : (tripConsume st).current = st.current := by
  unfold tripConsume
  by_cases h1 : 0 < st.tripRemaining
  · rw [if_pos h1]
    by_cases h2 : st.tripRemaining - 1 = 0
    · rw [if_pos h2]
    · rw [if_neg h2]
  · rw [if_neg h1]

theorem stopCurrent_spec (pl : List ℕ) (st : TrackSt) :
    stopCurrentForTrack pl st = (removeAll pl (curPitches st.current),
      { st with current := Cur.none }, (curPitches st.current).map Call.off) := by
  obtain ⟨i, cur, a, b, f, l, ts, tr⟩ := st
  cases cur <;> rfl

theorem foldl_setAdd_pairs (l : List (ℕ × ℚ)) : ∀ pl : List ℕ,
    l.foldl (fun a p => setAdd a p.1) pl = addAll pl (l.map Prod.fst) := by
  induction l with
  | nil => intro pl; rfl
  | cons x xs ih => intro pl; exact ih (setAdd pl x.1)

theorem schedLoop_spec (now : ℤ) (bpm : ℚ) (pending : List SeqItem) :
    ∀ (pl : List ℕ) (st : TrackSt), st.current = Cur.none →
    (schedLoop now bpm pl st pending).1 =
      addAll pl (curPitches (schedLoop now bpm pl st pending).2.1.current) ∧
    (schedLoop now bpm pl st pending).2.2 =
      (curPitches (schedLoop now bpm pl st pending).2.1.current).map Call.on ∧
    (curPitches (schedLoop now bpm pl st pending).2.1.current = [] ∨
      ∃ it ∈ pending, curPitches (schedLoop now bpm pl st pending).2.1.current
        = itemPitches it) := by
  induction pending with
  | nil =>
    intro pl st hcur
    simp only [schedLoop]
    have hc : curPitches ({ st with idx := st.idx + 1, finished := true }).current = [] := by
      show curPitches st.current = []
      rw [hcur]
      rfl
    rw [hc]
    exact ⟨rfl, rfl, Or.inl rfl⟩
  | cons ev rest ih =>
    intro pl st hcur
    cases ev with
    | triole base =>
      simp only [schedLoop]
      obtain ⟨h1, h2, h3⟩ := ih pl
        { st with
          idx := st.idx + 1
          tripScale := (trioleScaleFrom rest base).1
          tripRemaining := (trioleScaleFrom rest base).2 } hcur
      refine ⟨?_, ?_, ?_⟩
      · exact h1
      · exact h2
      · rcases h3 with h3 | ⟨it, hit, hp⟩
        · exact Or.inl h3
        · exact Or.inr ⟨it, List.mem_cons_of_mem _ hit, hp⟩
    | rest beats =>
      simp only [schedLoop]
      rw [tripConsume_current]
      exact ⟨rfl, rfl, Or.inl rfl⟩
    | note n beats =>
      simp only [schedLoop]
      rw [tripConsume_current]
      exact ⟨rfl, rfl, Or.inr ⟨.note n beats, List.mem_cons_self _ _, rfl⟩⟩
    | chord ns beats =>
      simp only [schedLoop]
      rw [tripConsume_current]
      exact ⟨rfl, rfl, Or.inr ⟨.chord ns beats, List.mem_cons_self _ _, rfl⟩⟩
    | varChord items =>
      simp only [schedLoop]
      rw [tripConsume_current]
      refine ⟨?_, ?_, ?_⟩
      · show (items.map (fun p =>
            (p.1, if 0 < st.tripRemaining then p.2 * st.tripScale else p.2))).foldl
            (fun a p => setAdd a p.1) pl = _
        rw [foldl_setAdd_pairs]
        rfl
      · dsimp only [curPitches]
        simp only [List.map_map]
        rfl
      · refine Or.inr ⟨.varChord items, List.mem_cons_self _ _, ?_⟩
        show ((items.map (fun p =>
            (p.1, if 0 < st.tripRemaining then p.2 * st.tripScale else p.2))).map
            Prod.fst) = items.map Prod.fst
        rw [List.map_map]
        rfl

theorem updateTrack_spec (seq : List SeqItem) (now : ℤ) (bpm : ℚ) (pl : List ℕ)
    (st : TrackSt) :
    ∃ offP onP : List ℕ,
      (offP = curPitches st.current ∨ offP = []) ∧
      (onP = [] ∨ ∃ it ∈ seq, onP = itemPitches it) ∧
      (updateTrack seq now bpm pl st).2.2 = offP.map Call.off ++ onP.map Call.on ∧
      (updateTrack seq now bpm pl st).1 = addAll (removeAll pl offP) onP ∧
      (∀ p, p ∈ curPitches (updateTrack seq now bpm pl st).2.1.current ↔
        ((p ∈ curPitches st.current ∧ p ∉ offP) ∨ p ∈ onP)) ∧
      (∀ p, List.count p (curPitches (updateTrack seq now bpm pl st).2.1.current) +
          List.count p offP =
        List.count p (curPitches st.current) + List.count p onP) ∧
      (curPitches (updateTrack seq now bpm pl st).2.1.current = curPitches st.current ∨
       curPitches (updateTrack seq now bpm pl st).2.1.current = onP ∨
       curPitches (updateTrack seq now bpm pl st).2.1.current = []) := by
  by_cases hf1 : isSounding st.current ∧ st.offMs ≤ now
  · by_cases hn : st.nextOnMs ≤ now
    · have hA : updateTrack seq now bpm pl st =
          ((schedLoop now bpm (removeAll pl (curPitches st.current))
              { st with current := Cur.none } (seq.drop ((st.idx + 1).toNat))).1,
           (schedLoop now bpm (removeAll pl (curPitches st.current))
              { st with current := Cur.none } (seq.drop ((st.idx + 1).toNat))).2.1,
           (curPitches st.current).map Call.off ++
             (schedLoop now bpm (removeAll pl (curPitches st.current))
               { st with current := Cur.none } (seq.drop ((st.idx + 1).toNat))).2.2) := by
        unfold updateTrack
        rw [if_pos hf1, stopCurrent_spec]
        dsimp only
        rw [if_pos ⟨rfl, hn⟩]
      obtain ⟨h1, h2, h3⟩ := schedLoop_spec now bpm (seq.drop ((st.idx + 1).toNat))
        (removeAll pl (curPitches st.current)) { st with current := Cur.none } rfl
      refine ⟨curPitches st.current,
        curPitches (schedLoop now bpm (removeAll pl (curPitches st.current))
          { st with current := Cur.none } (seq.drop ((st.idx + 1).toNat))).2.1.current,
        Or.inl rfl, ?_, ?_, ?_, ?_, ?_, ?_⟩
      · rcases h3 with h3 | ⟨it, hit, hp⟩
        · exact Or.inl h3
        · exact Or.inr ⟨it, List.drop_subset _ _ hit, hp⟩
      · rw [hA, h2]
      · rw [hA, h1]
      · intro p
        rw [hA]
        constructor
        · intro hp; exact Or.inr hp
        · rintro (⟨hc, hnc⟩ | hp)
          · exact absurd hc hnc
          · exact hp
      · intro p
        rw [hA]
        dsimp only
        omega
      · rw [hA]
        exact Or.inr (Or.inl rfl)
    · have hB : updateTrack seq now bpm pl st =
          (removeAll pl (curPitches st.current), { st with current := Cur.none },
           (curPitches st.current).map Call.off) := by
        unfold updateTrack
        rw [if_pos hf1, stopCurrent_spec]
        dsimp only
        rw [if_neg (fun hc => hn hc.2)]
      refine ⟨curPitches st.current, [], Or.inl rfl, Or.inl rfl, ?_, ?_, ?_, ?_, ?_⟩
      · rw [hB]; simp
      · rw [hB]; rfl
      · intro p
        rw [hB]
        constructor
        · intro hp; cases hp
        · rintro (⟨hc, hnc⟩ | hp)
          · exact absurd hc hnc
          · cases hp
      · intro p
        rw [hB]
        simp [curPitches]
      · rw [hB]
        exact Or.inr (Or.inr rfl)
  · by_cases hf2 : st.current = Cur.none ∧ st.nextOnMs ≤ now
    · have hC : updateTrack seq now bpm pl st =
          ((schedLoop now bpm pl st (seq.drop ((st.idx + 1).toNat))).1,
           (schedLoop now bpm pl st (seq.drop ((st.idx + 1).toNat))).2.1,
           (schedLoop now bpm pl st (seq.drop ((st.idx + 1).toNat))).2.2) := by
        unfold updateTrack
        rw [if_neg hf1]
        dsimp only
        rw [if_pos hf2]
        rfl
      obtain ⟨h1, h2, h3⟩ := schedLoop_spec now bpm (seq.drop ((st.idx + 1).toNat))
        pl st hf2.1
      refine ⟨[],
        curPitches (schedLoop now bpm pl st (seq.drop ((st.idx + 1).toNat))).2.1.current,
        Or.inr rfl, ?_, ?_, ?_, ?_, ?_, ?_⟩
      · rcases h3 with h3 | ⟨it, hit, hp⟩
        · exact Or.inl h3
        · exact Or.inr ⟨it, List.drop_subset _ _ hit, hp⟩
      · rw [hC]
        dsimp only
        rw [h2, List.map_nil, List.nil_append]
      · rw [hC, h1]; rfl
      · intro p
        rw [hC, hf2.1]
        constructor
        · intro hp; exact Or.inr hp
        · rintro (⟨hc, hnc⟩ | hp)
          · cases hc
          · exact hp
      · intro p
        rw [hC, hf2.1]
        simp [curPitches]
      · rw [hC]
        exact Or.inr (Or.inl rfl)
    · have hD : updateTrack seq now bpm pl st = (pl, st, []) := by
        unfold updateTrack
        rw [if_neg hf1]
        dsimp only
        rw [if_neg hf2]
      refine ⟨[], [], Or.inr rfl, Or.inl rfl, ?_, ?_, ?_, ?_, ?_⟩
      · rw [hD]; rfl
      · rw [hD]; rfl
      · intro p
        rw [hD]
        constructor
        · intro hp; exact Or.inl ⟨hp, fun hc => by cases hc⟩
        · rintro (⟨hc, _⟩ | hp)
          · exact hc
          · cases hp
      · intro p
        rw [hD]
      · rw [hD]
        exact Or.inl rfl

theorem alistGet_append_right {κ β : Type} [DecidableEq κ] (k : κ)
    (l1 l2 : List (κ × β)) (h : ∀ q ∈ l1, q.1 ≠ k) :
    alistGet k (l1 ++ l2) = alistGet k l2 := by
  induction l1 with
  | nil => rfl
  | cons q rest ih =>
    obtain ⟨k', v⟩ := q
    rw [List.cons_append]
    show (if k = k' then some v else alistGet k (rest ++ l2)) = alistGet k l2
    rw [if_neg (fun he => h (k', v) (List.mem_cons_self _ _) he.symm)]
    exact ih (fun q hq => h q (List.mem_cons_of_mem _ hq))

theorem alistGet_cons_self {κ β : Type} [DecidableEq κ] (k : κ) (v : β)
    (l : List (κ × β)) : alistGet k ((k, v) :: l) = some v := by
  show (if k = k then some v else alistGet k l) = some v
  rw [if_pos rfl]

theorem alistSet_absent {κ β : Type} [DecidableEq κ] (k : κ) (v : β)
    (l : List (κ × β)) (h : ∀ q ∈ l, q.1 ≠ k) : alistSet k v l = l := by
  induction l with
  | nil => rfl
  | cons q rest ih =>
    show (if q.1 = k then (k, v) else q) :: alistSet k v rest = q :: rest
    rw [if_neg (h q (List.mem_cons_self _ _)), ih (fun q hq => h q (List.mem_cons_of_mem _ hq))]

theorem alistSet_mid {κ β : Type} [DecidableEq κ] (k : κ) (v w : β)
    (l1 l2 : List (κ × β)) (h1 : ∀ q ∈ l1, q.1 ≠ k) (h2 : ∀ q ∈ l2, q.1 ≠ k) :
    alistSet k v (l1 ++ (k, w) :: l2) = l1 ++ (k, v) :: l2 := by
  show List.map _ (l1 ++ (k, w) :: l2) = _
  rw [List.map_append, List.map_cons]
  show alistSet k v l1 ++ (if (k, w).1 = k then (k, v) else (k, w)) :: alistSet k v l2 = _
  rw [alistSet_absent k v l1 h1, alistSet_absent k v l2 h2, if_pos rfl]

theorem forall2_labels {s : List (String × List SeqItem)} {t : List (String × TrackSt)}
    (h : List.Forall₂ trkAligned s t) : t.map Prod.fst = s.map Prod.fst := by
  induction h with
  | nil => rfl
  | cons hR _ ih =>
    rw [List.map_cons, List.map_cons, ih, hR.1]

theorem trkAligned_sub {pr : String × List SeqItem} {tr : String × TrackSt}
    (h : trkAligned pr tr) :
    ∀ p ∈ curPitches tr.2.current, p ∈ seqPitches pr.2 := by
  intro p hp
  rcases h.2 with he | ⟨it, hit, he⟩
  · rw [he] at hp; cases hp
  · rw [he] at hp
    exact List.mem_flatMap.mpr ⟨it, hit, hp⟩

theorem allCur_append (a b : List (String × TrackSt)) :
    allCur (a ++ b) = allCur a ++ allCur b := by
  unfold allCur
  exact List.flatMap_append a b _

theorem allCur_cons (tr : String × TrackSt) (l : List (String × TrackSt)) :
    allCur (tr :: l) = curPitches tr.2.current ++ allCur l := rfl

theorem allCur_sub {s : List (String × List SeqItem)} {t : List (String × TrackSt)}
    (h : List.Forall₂ trkAligned s t) :
    ∀ p ∈ allCur t, ∃ pr ∈ s, p ∈ seqPitches pr.2 := by
  induction h with
  | nil => intro p hp; cases hp
  | cons hR hRs ih =>
    intro p hp
    rw [allCur_cons, List.mem_append] at hp
    rcases hp with hp | hp
    · exact ⟨_, List.mem_cons_self _ _, trkAligned_sub hR p hp⟩
    · obtain ⟨pr, hpr, hmem⟩ := ih p hp
      exact ⟨pr, List.mem_cons_of_mem _ hpr, hmem⟩

theorem count_allCur_append (p : ℕ) (a b : List (String × TrackSt)) :
    (allCur (a ++ b)).count p = (allCur a).count p + (allCur b).count p := by
  rw [allCur_append, List.count_append]

theorem count_allCur_cons (p : ℕ) (tr : String × TrackSt) (l : List (String × TrackSt)) :
    (allCur (tr :: l)).count p =
      (curPitches tr.2.current).count p + (allCur l).count p := by
  rw [allCur_cons, List.count_append]

theorem allCur_count_le_one {seqs : List (String × List SeqItem)}
    {t : List (String × TrackSt)}
    (hitems : ∀ pr ∈ seqs, ∀ it ∈ pr.2, (itemPitches it).Nodup)
    (hdis : seqs.Pairwise (fun a b => ∀ p ∈ seqPitches a.2, p ∉ seqPitches b.2))
    (hal : List.Forall₂ trkAligned seqs t) :
    ∀ p, (allCur t).count p ≤ 1 := by
  induction hal with
  | nil => intro p; simp [allCur]
  | @cons a b s2 t2 hR hRs ih =>
    intro p
    rw [count_allCur_cons]
    have hc1 : (curPitches b.2.current).count p ≤ 1 := by
      rcases hR.2 with he | ⟨it, hit, he⟩
      · rw [he]; simp
      · rw [he]
        exact List.nodup_iff_count_le_one.mp
          (hitems a (List.mem_cons_self _ _) it hit) p
    have hc2 : (allCur t2).count p ≤ 1 :=
      ih (fun pr hpr => hitems pr (List.mem_cons_of_mem _ hpr))
        (List.Pairwise.of_cons hdis) p
    by_cases hp : p ∈ curPitches b.2.current
    · have hps : p ∈ seqPitches a.2 := trkAligned_sub hR p hp
      have hnt : p ∉ allCur t2 := by
        intro hmem
        obtain ⟨pr, hpr, hmem2⟩ := allCur_sub hRs p hmem
        exact (List.rel_of_pairwise_cons hdis hpr) p hps hmem2
      rw [List.count_eq_zero.mpr hnt]
      omega
    · rw [List.count_eq_zero.mpr hp]
      omega

theorem count_eq_of_mem_iff {l l' : List ℕ} (hnd : l.Nodup)
    (hle : ∀ p, l'.count p ≤ 1) (hm : ∀ p, p ∈ l ↔ p ∈ l') :
    ∀ p, l.count p = l'.count p := by
  intro p
  by_cases h : p ∈ l
  · have h1 : l.count p = 1 :=
      Nat.le_antisymm (List.nodup_iff_count_le_one.mp hnd p)
        (List.count_pos_iff.mpr h)
    have h2 : l'.count p = 1 :=
      Nat.le_antisymm (hle p) (List.count_pos_iff.mpr ((hm p).mp h))
    rw [h1, h2]
  · rw [List.count_eq_zero.mpr h,
      List.count_eq_zero.mpr (fun hc => h ((hm p).mpr hc))]

theorem allCur_nil : allCur [] = [] := rfl

set_option maxHeartbeats 1600000 in
theorem updFold_main (now : ℤ) (bpm : ℚ)
    {pend : List (String × List SeqItem)} {pendT : List (String × TrackSt)}
    (hal : List.Forall₂ trkAligned pend pendT) :
    ∀ (doneS : List (String × List SeqItem)) (doneT : List (String × TrackSt))
      (pl : List ℕ) (allFin : Bool),
    List.Forall₂ trkAligned doneS doneT →
    ((doneS ++ pend).map Prod.fst).Nodup →
    (doneS ++ pend).Pairwise (fun a b => ∀ p ∈ seqPitches a.2, p ∉ seqPitches b.2) →
    (∀ p, p ∈ pl ↔ p ∈ allCur (doneT ++ pendT)) →
    pl.Nodup →
    ∃ pendTF : List (String × TrackSt),
      (updFold now bpm pend (doneT ++ pendT) pl allFin).1 = doneT ++ pendTF ∧
      List.Forall₂ trkAligned pend pendTF ∧
      (∀ p, p ∈ (updFold now bpm pend (doneT ++ pendT) pl allFin).2.1 ↔
        p ∈ allCur (doneT ++ pendTF)) ∧
      (updFold now bpm pend (doneT ++ pendT) pl allFin).2.1.Nodup ∧
      (∀ p, onCount p (updFold now bpm pend (doneT ++ pendT) pl allFin).2.2.1 +
          (allCur (doneT ++ pendT)).count p =
        offCount p (updFold now bpm pend (doneT ++ pendT) pl allFin).2.2.1 +
          (allCur (doneT ++ pendTF)).count p) := by
  induction hal with
  | nil =>
    intro doneS doneT pl allFin hdone hnod hdis hmem hpl
    exact ⟨[], rfl, List.Forall₂.nil, hmem, hpl, fun p => rfl⟩
  | @cons a b pend2 pendT2 hR hRs ih =>
    intro doneS doneT pl allFin hdone hnod hdis hmem hpl
    obtain ⟨label, seq⟩ := a
    obtain ⟨label2, tst⟩ := b
    have hlab : label = label2 := hR.1
    subst hlab
    have hfstD : doneT.map Prod.fst = doneS.map Prod.fst := forall2_labels hdone
    have hfstP : pendT2.map Prod.fst = pend2.map Prod.fst := forall2_labels hRs
    have hnod2 := hnod
    rw [List.map_append, List.nodup_append] at hnod2
    have hlabD : ∀ q ∈ doneT, q.1 ≠ label := by
      intro q hq he
      have h1 : q.1 ∈ doneT.map Prod.fst := List.mem_map_of_mem _ hq
      rw [hfstD, he] at h1
      exact hnod2.2.2 h1 (by simp)
    have hlabP : ∀ q ∈ pendT2, q.1 ≠ label := by
      intro q hq he
      have h1 : q.1 ∈ pendT2.map Prod.fst := List.mem_map_of_mem _ hq
      rw [hfstP, he] at h1
      have h2 : (List.map Prod.fst ((label, seq) :: pend2)).Nodup := hnod2.2.1
      rw [List.map_cons] at h2
      exact (List.nodup_cons.mp h2).1 h1
    have hget : alistGet label (doneT ++ (label, tst) :: pendT2) = some tst := by
      rw [alistGet_append_right label doneT _ hlabD, alistGet_cons_self]
    have hsplitS : doneS ++ (label, seq) :: pend2 = (doneS ++ [(label, seq)]) ++ pend2 := by
      rw [List.append_assoc, List.singleton_append]
    have hdoneaway : ∀ p ∈ allCur doneT, p ∉ seqPitches seq := by
      intro p hp hps
      obtain ⟨pr, hpr, hpm⟩ := allCur_sub hdone p hp
      exact (List.pairwise_append.mp hdis).2.2 pr hpr (label, seq)
        (List.mem_cons_self _ _) p hpm hps
    have hpendaway : ∀ p ∈ allCur pendT2, p ∉ seqPitches seq := by
      intro p hp hps
      obtain ⟨pr, hpr, hpm⟩ := allCur_sub hRs p hp
      exact (List.rel_of_pairwise_cons (List.pairwise_append.mp hdis).2.1 hpr) p hps hpm
    by_cases hfin : tst.finished
    · have hunf : updFold now bpm ((label, seq) :: pend2)
          (doneT ++ (label, tst) :: pendT2) pl allFin =
          updFold now bpm pend2 (doneT ++ (label, tst) :: pendT2) pl allFin := by
        simp only [updFold]
        rw [hget]
        dsimp only
        rw [if_pos hfin]
      rw [hunf]
      rw [hsplitS] at hnod hdis
      have hsplitT : doneT ++ (label, tst) :: pendT2 =
          (doneT ++ [(label, tst)]) ++ pendT2 := by
        rw [List.append_assoc, List.singleton_append]
      rw [hsplitT] at hmem ⊢
      have hdone2 : List.Forall₂ trkAligned (doneS ++ [(label, seq)])
          (doneT ++ [(label, tst)]) :=
        List.rel_append hdone (List.Forall₂.cons hR List.Forall₂.nil)
      obtain ⟨pendTF, h1, h2, h3, h4, h5⟩ :=
        ih (doneS ++ [(label, seq)]) (doneT ++ [(label, tst)]) pl allFin
          hdone2 hnod hdis hmem hpl
      have hsplit2 : doneT ++ (label, tst) :: pendTF =
          (doneT ++ [(label, tst)]) ++ pendTF := by
        rw [List.append_assoc, List.singleton_append]
      refine ⟨(label, tst) :: pendTF, ?_, List.Forall₂.cons hR h2, ?_, h4, ?_⟩
      · rw [hsplit2]; exact h1
      · intro p; rw [hsplit2]; exact h3 p
      · intro p; rw [hsplit2]; exact h5 p
    · obtain ⟨offP, onP, hoffc, honc, hcalls, hpl1, hmemiff, hcnt, hshp⟩ :=
        updateTrack_spec seq now bpm pl tst
      have hunf : updFold now bpm ((label, seq) :: pend2)
          (doneT ++ (label, tst) :: pendT2) pl allFin =
          ((updFold now bpm pend2
              (alistSet label (updateTrack seq now bpm pl tst).2.1
                (doneT ++ (label, tst) :: pendT2))
              (updateTrack seq now bpm pl tst).1
              (allFin && (updateTrack seq now bpm pl tst).2.1.finished)).1,
           (updFold now bpm pend2
              (alistSet label (updateTrack seq now bpm pl tst).2.1
                (doneT ++ (label, tst) :: pendT2))
              (updateTrack seq now bpm pl tst).1
              (allFin && (updateTrack seq now bpm pl tst).2.1.finished)).2.1,
           (updateTrack seq now bpm pl tst).2.2 ++
             (updFold now bpm pend2
               (alistSet label (updateTrack seq now bpm pl tst).2.1
                 (doneT ++ (label, tst) :: pendT2))
               (updateTrack seq now bpm pl tst).1
               (allFin && (updateTrack seq now bpm pl tst).2.1.finished)).2.2.1,
           (updFold now bpm pend2
              (alistSet label (updateTrack seq now bpm pl tst).2.1
                (doneT ++ (label, tst) :: pendT2))
              (updateTrack seq now bpm pl tst).1
              (allFin && (updateTrack seq now bpm pl tst).2.1.finished)).2.2.2) := by
        simp only [updFold]
        rw [hget]
        dsimp only
        rw [if_neg hfin]
      rw [alistSet_mid label ((updateTrack seq now bpm pl tst).2.1) tst doneT pendT2
        hlabD hlabP] at hunf
      rw [hunf, hpl1, hcalls]
      revert hmemiff hcnt hshp
      generalize (updateTrack seq now bpm pl tst).2.1 = tst1
      intro hmemiff hcnt hshp
      have hoffsub : ∀ p ∈ offP, p ∈ seqPitches seq := by
        intro p hp
        rcases hoffc with he | he
        · rw [he] at hp
          exact trkAligned_sub hR p hp
        · rw [he] at hp; cases hp
      have hmem2 : ∀ p, p ∈ pl ↔
          p ∈ allCur doneT ∨ p ∈ curPitches tst.current ∨ p ∈ allCur pendT2 := by
        intro p
        rw [hmem p, allCur_append, allCur_cons]
        simp [List.mem_append]
      have hmem3 : ∀ p, p ∈ addAll (removeAll pl offP) onP ↔
          p ∈ allCur ((doneT ++ [(label, tst1)]) ++ pendT2) := by
        intro p
        rw [addAll_mem, removeAll_mem offP pl hpl p, hmem2 p,
          allCur_append, allCur_append, allCur_cons, allCur_nil]
        simp only [List.mem_append, List.not_mem_nil, or_false, List.append_nil]
        rw [hmemiff p]
        have hOA : p ∈ offP → p ∉ allCur doneT :=
          fun hO hA => hdoneaway p hA (hoffsub p hO)
        have hOB : p ∈ offP → p ∉ allCur pendT2 :=
          fun hO hB => hpendaway p hB (hoffsub p hO)
        tauto
      have hnd1 : (addAll (removeAll pl offP) onP).Nodup :=
        addAll_nodup onP _ (removeAll_nodup offP pl hpl)
      have hshape1 : trkAligned (label, seq) (label, tst1) := by
        refine ⟨rfl, ?_⟩
        show curPitches tst1.current = [] ∨
          ∃ it ∈ seq, curPitches tst1.current = itemPitches it
        rcases hshp with he | he | he
        · rw [he]
          exact hR.2
        · rw [he]
          rcases honc with h0 | hex
          · rw [h0]; exact Or.inl rfl
          · exact Or.inr hex
        · rw [he]; exact Or.inl rfl
      rw [hsplitS] at hnod hdis
      have hdone2 : List.Forall₂ trkAligned (doneS ++ [(label, seq)])
          (doneT ++ [(label, tst1)]) :=
        List.rel_append hdone (List.Forall₂.cons hshape1 List.Forall₂.nil)
      obtain ⟨pendTF, h1, h2, h3, h4, h5⟩ :=
        ih (doneS ++ [(label, seq)]) (doneT ++ [(label, tst1)])
          (addAll (removeAll pl offP) onP) (allFin && tst1.finished)
          hdone2 hnod hdis hmem3 hnd1
      have hsplitT1 : doneT ++ (label, tst1) :: pendT2 =
          (doneT ++ [(label, tst1)]) ++ pendT2 := by
        rw [List.append_assoc, List.singleton_append]
      rw [hsplitT1]
      have hsplit2 : doneT ++ (label, tst1) :: pendTF =
          (doneT ++ [(label, tst1)]) ++ pendTF := by
        rw [List.append_assoc, List.singleton_append]
      refine ⟨(label, tst1) :: pendTF, ?_, List.Forall₂.cons hshape1 h2, ?_, h4, ?_⟩
      · rw [hsplit2]; exact h1
      · intro p; rw [hsplit2]; exact h3 p
      · intro p
        have hb := h5 p
        have hc := hcnt p
        rw [hsplit2]
        unfold onCount offCount at hb ⊢
        simp only [List.count_append, count_on_map_on, count_on_map_off,
          count_off_map_on, count_off_map_off, count_allCur_append,
          count_allCur_cons, allCur_nil, List.count_nil] at hb ⊢
        omega

theorem sequencerUpdate_eq (seqs : List (String × List SeqItem)) (now : ℤ) (bpm : ℚ)
    (st : SysSt) (hp : st.isPlaying = true) :
    sequencerUpdate seqs now bpm st =
      (if (updFold now bpm seqs st.tracks st.playingNotes true).2.2.2 = true then
        (⟨false, [], []⟩,
         (updFold now bpm seqs st.tracks st.playingNotes true).2.2.1 ++
           (updFold now bpm seqs st.tracks st.playingNotes true).2.1.map Call.off)
       else
        (⟨true, (updFold now bpm seqs st.tracks st.playingNotes true).1,
           (updFold now bpm seqs st.tracks st.playingNotes true).2.1⟩,
         (updFold now bpm seqs st.tracks st.playingNotes true).2.2.1)) := by
  unfold sequencerUpdate
  rw [if_pos hp]
  rfl

theorem sequencerUpdate_inv (seqs : List (String × List SeqItem)) (now : ℤ) (bpm : ℚ)
    (st : SysSt)
    (hlabels : (seqs.map Prod.fst).Nodup)
    (hitems : ∀ pr ∈ seqs, ∀ it ∈ pr.2, (itemPitches it).Nodup)
    (hdis : seqs.Pairwise (fun a b => ∀ p ∈ seqPitches a.2, p ∉ seqPitches b.2))
    (hinv : sysInv seqs st) :
    sysInv seqs (sequencerUpdate seqs now bpm st).1 ∧
    (∀ p, onCount p (sequencerUpdate seqs now bpm st).2 +
        (allCur st.tracks).count p =
      offCount p (sequencerUpdate seqs now bpm st).2 +
        (allCur (sequencerUpdate seqs now bpm st).1.tracks).count p) := by
  obtain ⟨hplay, hstop, hmem, hnd⟩ := hinv
  by_cases hp : st.isPlaying = true
  · have hal := hplay hp
    obtain ⟨pendTF, h1, h2, h3, h4, h5⟩ :=
      updFold_main now bpm hal [] [] st.playingNotes true
        List.Forall₂.nil hlabels hdis hmem hnd
    simp only [List.nil_append] at h1 h3 h5
    by_cases hfin : (updFold now bpm seqs st.tracks st.playingNotes true).2.2.2 = true
    · rw [sequencerUpdate_eq seqs now bpm st hp, if_pos hfin]
      constructor
      · refine ⟨fun h => absurd h (by simp), fun _ => rfl, fun p => ?_, List.nodup_nil⟩
        simp [allCur_nil]
      · intro p
        have hb := h5 p
        have hcq : (updFold now bpm seqs st.tracks st.playingNotes true).2.1.count p =
            (allCur pendTF).count p :=
          count_eq_of_mem_iff h4 (allCur_count_le_one hitems hdis h2) h3 p
        unfold onCount offCount at hb ⊢
        simp only [List.count_append, count_on_map_off, count_off_map_off,
          allCur_nil, List.count_nil]
        omega
    · rw [sequencerUpdate_eq seqs now bpm st hp, if_neg hfin]
      constructor
      · refine ⟨fun _ => ?_, fun h => absurd h (by simp), fun p => ?_, h4⟩
        · show List.Forall₂ trkAligned seqs (updFold now bpm seqs st.tracks st.playingNotes true).1
          rw [h1]
          exact h2
        · show _ ↔ p ∈ allCur (updFold now bpm seqs st.tracks st.playingNotes true).1
          rw [h1]
          exact h3 p
      · intro p
        show _ + _ = _ + (allCur (updFold now bpm seqs st.tracks st.playingNotes true).1).count p
        rw [h1]
        exact h5 p
  · have hueq : sequencerUpdate seqs now bpm st = (st, []) := by
      unfold sequencerUpdate
      rw [if_neg hp]
    rw [hueq]
    exact ⟨⟨hplay, hstop, hmem, hnd⟩, fun p => rfl⟩

theorem runUpdates_eq (seqs : List (String × List SeqItem)) (now : ℤ) (bpm : ℚ)
    (ticks : List (ℤ × ℚ)) (st : SysSt) :
    runUpdates seqs ((now, bpm) :: ticks) st =
      ((runUpdates seqs ticks (sequencerUpdate seqs now bpm st).1).1,
       (sequencerUpdate seqs now bpm st).2 ++
         (runUpdates seqs ticks (sequencerUpdate seqs now bpm st).1).2) := by
  simp only [runUpdates]

theorem runUpdates_inv (seqs : List (String × List SeqItem))
    (hlabels : (seqs.map Prod.fst).Nodup)
    (hitems : ∀ pr ∈ seqs, ∀ it ∈ pr.2, (itemPitches it).Nodup)
    (hdis : seqs.Pairwise (fun a b => ∀ p ∈ seqPitches a.2, p ∉ seqPitches b.2)) :
    ∀ (ticks : List (ℤ × ℚ)) (st : SysSt), sysInv seqs st →
    sysInv seqs (runUpdates seqs ticks st).1 ∧
    (∀ p, onCount p (runUpdates seqs ticks st).2 + (allCur st.tracks).count p =
      offCount p (runUpdates seqs ticks st).2 +
        (allCur (runUpdates seqs ticks st).1.tracks).count p) := by
  intro ticks
  induction ticks with
  | nil => intro st hinv; exact ⟨hinv, fun p => rfl⟩
  | cons tick ticks ih =>
    intro st hinv
    obtain ⟨now, bpm⟩ := tick
    obtain ⟨hinv1, hbal1⟩ := sequencerUpdate_inv seqs now bpm st hlabels hitems hdis hinv
    obtain ⟨hinv2, hbal2⟩ := ih (sequencerUpdate seqs now bpm st).1 hinv1
    rw [runUpdates_eq]
    refine ⟨hinv2, fun p => ?_⟩
    have hb1 := hbal1 p
    have hb2 := hbal2 p
    unfold onCount offCount at hb1 hb2 ⊢
    simp only [List.count_append]
    omega

theorem initTracks_aligned (now : ℤ) (seqs : List (String × List SeqItem)) :
    List.Forall₂ trkAligned seqs (seqs.map (fun pr => (pr.1, initTrack now pr.2))) := by
  induction seqs with
  | nil => exact List.Forall₂.nil
  | cons pr rest ih =>
    exact List.Forall₂.cons ⟨rfl, Or.inl rfl⟩ ih

theorem allCur_initTracks (now : ℤ) (seqs : List (String × List SeqItem)) :
    allCur (seqs.map (fun pr => (pr.1, initTrack now pr.2))) = [] := by
  induction seqs with
  | nil => rfl
  | cons pr rest ih =>
    rw [List.map_cons, allCur_cons, ih]
    rfl

theorem sessionTrace_eq (seqs : List (String × List SeqItem)) (startNow : ℤ)
    (ticks : List (ℤ × ℚ)) :
    sessionTrace seqs startNow ticks =
      (sequencerStart seqs startNow initialSys).2 ++
        (runUpdates seqs ticks (sequencerStart seqs startNow initialSys).1).2 ++
        (runUpdates seqs ticks
          (sequencerStart seqs startNow initialSys).1).1.playingNotes.map .off := rfl

/-- C6 counterexample: two tracks sounding the same pitch 60 at overlapping
times.  Both note-ons are emitted, but `PLAYING_SEQ_NOTES` is a set, so the
shared pitch is recorded once and Stop emits a single note-off: 2 ≠ 1. -/
theorem c6_counterexample :
    onCount 60 (sessionTrace [("L", [SeqItem.note 60 2]), ("R", [SeqItem.note 60 1])]
        0 [(0, 120)]) = 2 ∧
    offCount 60 (sessionTrace [("L", [SeqItem.note 60 2]), ("R", [SeqItem.note 60 1])]
        0 [(0, 120)]) = 1 := by
  constructor <;> with_unfolding_all decide

/-- C6: for every playback session from Start through any ticks until Stop
(manual or auto), and every pitch, note-on and note-off calls balance —
provided no pitch is shared between tracks (pairwise disjoint track pitch
sets), track labels are distinct, and no single event lists a pitch twice.
Without the disjointness proviso the claim fails (see the counterexample):
the process-wide set `PLAYING_SEQ_NOTES` collapses a pitch sounded by two
tracks at once, and Stop then emits fewer note-offs than note-ons. -/
theorem c6_balance (seqs : List (String × List SeqItem)) (startNow : ℤ)
    (ticks : List (ℤ × ℚ))
    (hlabels : (seqs.map Prod.fst).Nodup)
    (hitems : ∀ pr ∈ seqs, ∀ it ∈ pr.2, (itemPitches it).Nodup)
    (hdis : seqs.Pairwise (fun a b => ∀ p ∈ seqPitches a.2, p ∉ seqPitches b.2))
    (p : ℕ) :
    onCount p (sessionTrace seqs startNow ticks) =
      offCount p (sessionTrace seqs startNow ticks) := by
  rw [sessionTrace_eq]
  have hstart : sysInv seqs (sequencerStart seqs startNow initialSys).1 ∧
      (sequencerStart seqs startNow initialSys).2 = [] ∧
      (allCur (sequencerStart seqs startNow initialSys).1.tracks).count p = 0 := by
    unfold sequencerStart
    by_cases hempty : seqs.all (fun pr => pr.2.isEmpty)
    · rw [if_pos hempty]
      refine ⟨⟨fun h => absurd h (by simp [initialSys]), fun _ => rfl,
        fun q => ?_, List.nodup_nil⟩, rfl, rfl⟩
      simp [initialSys, allCur]
    · rw [if_neg hempty]
      refine ⟨⟨fun _ => initTracks_aligned startNow seqs,
        fun h => absurd h (by simp), fun q => ?_, List.nodup_nil⟩, rfl, ?_⟩
      · simp [allCur_initTracks]
      · simp [allCur_initTracks]
  obtain ⟨hinv0, hc0, hcnt0⟩ := hstart
  obtain ⟨hinvF, hbal⟩ := runUpdates_inv seqs hlabels hitems hdis ticks _ hinv0
  obtain ⟨hplayF, hstopF, hmemF, hndF⟩ := hinvF
  have hfinal : ((runUpdates seqs ticks
        (sequencerStart seqs startNow initialSys).1).1.playingNotes).count p =
      (allCur (runUpdates seqs ticks
        (sequencerStart seqs startNow initialSys).1).1.tracks).count p := by
    by_cases hF : (runUpdates seqs ticks
        (sequencerStart seqs startNow initialSys).1).1.isPlaying = true
    · exact count_eq_of_mem_iff hndF (allCur_count_le_one hitems hdis (hplayF hF)) hmemF p
    · have hf2 := Bool.eq_false_iff.mpr hF
      have hnm : p ∉ (runUpdates seqs ticks
          (sequencerStart seqs startNow initialSys).1).1.playingNotes := by
        intro hmemp
        have hmc := (hmemF p).mp hmemp
        rw [hstopF hf2, allCur_nil] at hmc
        cases hmc
      rw [hstopF hf2, List.count_eq_zero.mpr hnm, allCur_nil, List.count_nil]
  have hb := hbal p
  rw [hc0]
  unfold onCount offCount at hb ⊢
  simp only [List.count_append, List.nil_append, count_on_map_off, count_off_map_off]
  omega

/-- Witness for the corrected C6 at two pitch-disjoint tracks and two ticks. -/
theorem c6_balance_witness :
    onCount 60 (sessionTrace [("L", [SeqItem.note 60 1]), ("R", [SeqItem.note 64 1])]
        0 [(0, 120), (600, 120)]) =
      offCount 60 (sessionTrace [("L", [SeqItem.note 60 1]), ("R", [SeqItem.note 64 1])]
        0 [(0, 120), (600, 120)]) :=
  c6_balance [("L", [SeqItem.note 60 1]), ("R", [SeqItem.note 64 1])] 0
    [(0, 120), (600, 120)] (by with_unfolding_all decide)
    (by with_unfolding_all decide) (by with_unfolding_all decide) 60
